import Mathlib

/-!
Verification of the CPU scheduling engine in `os.py`.

The source defines four pure scheduling functions over process records
(dictionaries with keys id, arrival, burst, priority):

* `fcfs processes`                — first come first served,
* `sjf processes`                 — shortest job first, non-preemptive,
* `priority_scheduling processes` — priority, non-preemptive,
* `round_robin processes quantum` — round robin, preemptive.

Each returns `(gantt, waiting, turnaround)` where `gantt` is a list of
`(id, start, finish)` triples and the other two are Python dicts from id to
a number.

Embedding notes:
* Python integers are embedded as `Int`.
* Python dicts are embedded as insertion-ordered association lists
  (`dinsert` overwrites in place, appends new keys at the end, exactly the
  observable behaviour of a Python dict built by item assignment).
* `sorted(xs, key=...)` and `list.sort(key=...)` are stable sorts; they are
  embedded as `List.insertionSort (fun a b => key a ≤ key b)`, which is the
  same stable sort (earlier elements precede later elements of equal key).
* The `while` loops of `sjf`, `priority_scheduling` and `round_robin` are
  embedded as fuel-indexed iterations of a step function; the step function
  is a direct transcription of one loop body.  `none` means the fuel bound
  was exhausted.  The top level functions supply the fuel bound
  `maxArrival + sumBurst + 1`, which is proven sufficient for valid inputs.
* `remaining[p["id"]]` inside the round robin loop is embedded with a
  defaulted lookup: `remaining` is initialised with every process id and the
  queue only ever holds input processes, so the lookup never actually
  misses (in Python it would raise `KeyError` otherwise).  The final
  `finish_time[p["id"]]` lookup is embedded faithfully as an `Option`.
-/

/-- A process record: one row of the `processes` list of dicts in `os.py`. -/
structure Process where
  id       : String
  arrival  : Int
  burst    : Int
  priority : Int
deriving DecidableEq, Repr

/-- Python dict from process id to an integer, as an insertion-ordered
association list. -/
abbrev Dict := List (String × Int)

/-- `d[k] = v` on a Python dict: overwrite in place if the key is present,
otherwise append at the end. -/
def dinsert (k : String) (v : Int) : Dict → Dict
  | [] => [(k, v)]
  | (k', v') :: rest => if k' = k then (k, v) :: rest else (k', v') :: dinsert k v rest

/-- `d[k]` on a Python dict (`none` when the key is absent). -/
def dlookup (k : String) : Dict → Option Int
  | [] => none
  | (k', v) :: rest => if k' = k then some v else dlookup k rest

/-- The Gantt timeline: a list of `(id, start, finish)` triples. -/
abbrev Timeline := List (String × Int × Int)

/-- The common result shape `(gantt, waiting, turnaround)`. -/
abbrev ScheduleResult := Timeline × Dict × Dict

/-- `sorted(processes, key=lambda x: x["arrival"])` — stable. -/
def sortByArrival (ps : List Process) : List Process :=
  ps.insertionSort (fun a b => a.arrival ≤ b.arrival)

/-- `ready.sort(key=lambda x: x["burst"])` — stable. -/
def sortByBurst (ps : List Process) : List Process :=
  ps.insertionSort (fun a b => a.burst ≤ b.burst)

/-- `ready.sort(key=lambda x: x["priority"])` — stable. -/
def sortByPriority (ps : List Process) : List Process :=
  ps.insertionSort (fun a b => a.priority ≤ b.priority)

/-! ### FCFS (`os.py` lines 11-25)

The `for` loop of `fcfs` is embedded as structural recursion on the sorted
process list, threading the clock and the three accumulators. -/

/-- One pass of the `fcfs` loop body over the remaining processes. -/
def fcfsGo (time : Int) (g : Timeline) (w t : Dict) : List Process → ScheduleResult
  | [] => (g, w, t)
  | p :: rest =>
    let start := if time < p.arrival then p.arrival else time
    let finish := start + p.burst
    fcfsGo finish (g ++ [(p.id, start, finish)])
      (dinsert p.id (start - p.arrival) w)
      (dinsert p.id (finish - p.arrival) t) rest

/-- `fcfs(processes)` from `os.py`. -/
def fcfs (processes : List Process) : ScheduleResult :=
  fcfsGo 0 [] [] [] (sortByArrival processes)

/-! ### SJF and priority scheduling (`os.py` lines 28-67)

`sjf` and `priority_scheduling` are textually identical up to the key used
to sort the ready list, so they share one step function parameterised by
the stable sort applied to the ready list. -/

/-- Loop state of the non-preemptive simulations: `rest` is the suffix of
the arrival-sorted process list not yet admitted (the part after index
`i`), the rest of the fields are the Python locals of the same names. -/
structure NPState where
  rest  : List Process
  ready : List Process
  time  : Int
  gantt : Timeline
  w     : Dict
  t     : Dict
deriving DecidableEq, Repr

/-- The loop exit condition `not (i < len(processes) or ready)`. -/
def npDone (s : NPState) : Prop := s.rest = [] ∧ s.ready = []

instance (s : NPState) : Decidable (npDone s) := by
  unfold npDone; infer_instance

/-- One iteration of the `while` body of `sjf` / `priority_scheduling`:
admit every process whose arrival is ≤ the clock (the inner `while` is a
`takeWhile` of the arrival-sorted suffix, exactly as in the source), then
either run the front of the key-sorted ready list to completion or idle
one tick.  The `[]` branch of the match is unreachable: `sortReady` is a
permutation, so it cannot empty a non-empty ready list. -/
def npStep (sortReady : List Process → List Process) (s : NPState) : NPState :=
  let arrived := s.rest.takeWhile (fun p => p.arrival ≤ s.time)
  let rest' := s.rest.dropWhile (fun p => p.arrival ≤ s.time)
  let ready' := s.ready ++ arrived
  if ready' = [] then
    { rest := rest', ready := ready', time := s.time + 1,
      gantt := s.gantt, w := s.w, t := s.t }
  else
    match sortReady ready' with
    | [] => s
    | p :: qs =>
      let start := s.time
      let finish := start + p.burst
      { rest := rest', ready := qs, time := finish,
        gantt := s.gantt ++ [(p.id, start, finish)],
        w := dinsert p.id (start - p.arrival) s.w,
        t := dinsert p.id (finish - p.arrival) s.t }

/-- The `while i < len(processes) or ready` loop, fuel-indexed. -/
def npLoop (sortReady : List Process → List Process) : Nat → NPState → Option NPState
  | 0, s => if npDone s then some s else none
  | fuel + 1, s => if npDone s then some s else npLoop sortReady fuel (npStep sortReady s)

/-- Largest arrival time (0 for the empty list), used for the fuel bound. -/
def maxArrival (ps : List Process) : Int :=
  ps.foldr (fun p m => max p.arrival m) 0

/-- Total burst, used for the fuel bound. -/
def sumBurst (ps : List Process) : Int :=
  ps.foldr (fun p m => p.burst + m) 0

/-- Fuel bound for every simulation loop: on valid inputs the clock grows
by at least one per iteration and never passes `maxArrival + sumBurst`. -/
def loopFuel (ps : List Process) : Nat :=
  (maxArrival ps + sumBurst ps + 1).toNat

/-- Initial loop state shared by both non-preemptive simulations. -/
def npInit (processes : List Process) : NPState :=
  { rest := sortByArrival processes, ready := [], time := 0,
    gantt := [], w := [], t := [] }

/-- `sjf(processes)` from `os.py`. -/
def sjf (processes : List Process) : Option ScheduleResult :=
  (npLoop sortByBurst (loopFuel processes) (npInit processes)).map
    fun s => (s.gantt, s.w, s.t)

/-- `priority_scheduling(processes)` from `os.py`. -/
def priority_scheduling (processes : List Process) : Option ScheduleResult :=
  (npLoop sortByPriority (loopFuel processes) (npInit processes)).map
    fun s => (s.gantt, s.w, s.t)

/-! ### Round robin (`os.py` lines 70-101) -/

/-- Loop state of `round_robin`: `rest` is the unadmitted suffix of the
arrival-sorted process list, `queue`/`rem`/`fin` are the Python locals
`queue`, `remaining`, `finish_time`. -/
structure RRState where
  rest  : List Process
  queue : List Process
  time  : Int
  rem   : Dict
  gantt : Timeline
  fin   : Dict
deriving DecidableEq, Repr

/-- The loop exit condition `not (i < len(processes) or queue)`. -/
def rrDone (s : RRState) : Prop := s.rest = [] ∧ s.queue = []

instance (s : RRState) : Decidable (rrDone s) := by
  unfold rrDone; infer_instance

/-- `remaining = {p["id"]: p["burst"] for p in processes}`. -/
def initRem (ps : List Process) : Dict :=
  ps.foldl (fun d p => dinsert p.id p.burst d) []

/-- One iteration of the `while` body of `round_robin`: admit arrivals,
then either run the front of the queue for `min(quantum, remaining)` and
requeue it behind the newly arrived (or record its finish time), or idle
one tick. -/
def rrStep (quantum : Int) (s : RRState) : RRState :=
  let arrived := s.rest.takeWhile (fun p => p.arrival ≤ s.time)
  let rest' := s.rest.dropWhile (fun p => p.arrival ≤ s.time)
  match s.queue ++ arrived with
  | [] =>
    { rest := rest', queue := [], time := s.time + 1,
      rem := s.rem, gantt := s.gantt, fin := s.fin }
  | p :: qs =>
    let r := (dlookup p.id s.rem).getD 0
    let exec := min quantum r
    let finish := s.time + exec
    let rem' := dinsert p.id (r - exec) s.rem
    let gantt' := s.gantt ++ [(p.id, s.time, finish)]
    if 0 < r - exec then
      let arrived2 := rest'.takeWhile (fun q => q.arrival ≤ finish)
      let rest'' := rest'.dropWhile (fun q => q.arrival ≤ finish)
      { rest := rest'', queue := qs ++ arrived2 ++ [p], time := finish,
        rem := rem', gantt := gantt', fin := s.fin }
    else
      { rest := rest', queue := qs, time := finish,
        rem := rem', gantt := gantt', fin := dinsert p.id finish s.fin }

/-- The `while i < len(processes) or queue` loop, fuel-indexed. -/
def rrLoop (quantum : Int) : Nat → RRState → Option RRState
  | 0, s => if rrDone s then some s else none
  | fuel + 1, s => if rrDone s then some s else rrLoop quantum fuel (rrStep quantum s)

/-- Initial loop state of `round_robin`. -/
def rrInit (processes : List Process) : RRState :=
  { rest := sortByArrival processes, queue := [], time := 0,
    rem := initRem (sortByArrival processes), gantt := [], fin := [] }

/-- The final `for p in processes` loop of `round_robin`, building the
turnaround and waiting dicts from the recorded finish times.  The lookup
`finish_time[p["id"]]` is fallible in Python (`KeyError`), hence the
`Option`. -/
def rrFinGo (fin : Dict) (w t : Dict) : List Process → Option (Dict × Dict)
  | [] => some (w, t)
  | p :: rest =>
    match dlookup p.id fin with
    | none => none
    | some f =>
      let tt := f - p.arrival
      rrFinGo fin (dinsert p.id (tt - p.burst) w) (dinsert p.id tt t) rest

/-- `round_robin(processes, quantum)` from `os.py`. -/
def round_robin (processes : List Process) (quantum : Int) : Option ScheduleResult :=
  match rrLoop quantum (loopFuel processes) (rrInit processes) with
  | none => none
  | some s =>
    (rrFinGo s.fin [] [] (sortByArrival processes)).map fun wt => (s.gantt, wt.1, wt.2)

/-! ### Derived notions used by the claims -/

/-- Valid input: positive integer bursts, non-negative arrivals, unique
ids (§6 of the spec). -/
def ValidInput (ps : List Process) : Prop :=
  (∀ p ∈ ps, 1 ≤ p.burst) ∧ (∀ p ∈ ps, 0 ≤ p.arrival) ∧ (ps.map Process.id).Nodup

instance (ps : List Process) : Decidable (ValidInput ps) := by
  unfold ValidInput; infer_instance

/-- Total duration attributed to one process id across a timeline. -/
def sumDur (id : String) : Timeline → Int
  | [] => 0
  | (i, s, f) :: rest => (if i = id then f - s else 0) + sumDur id rest

/-- Number of execution intervals attributed to one process id. -/
def countId (id : String) : Timeline → Nat
  | [] => 0
  | (i, _, _) :: rest => (if i = id then 1 else 0) + countId id rest

/-- The worked example of §8 of the spec. -/
def exampleProcs : List Process :=
  [⟨"P1", 0, 5, 1⟩, ⟨"P2", 1, 3, 2⟩, ⟨"P3", 2, 8, 3⟩]

/-! ### Concrete inputs used by the claims -/

/-- Two records sharing the id "A": an invalid collection (duplicate id). -/
def dupProcs : List Process := [⟨"A", 0, 2, 1⟩, ⟨"A", 0, 3, 1⟩]

/-- One record with a negative arrival and a non-positive burst. -/
def negProcs : List Process := [⟨"B", -1, -2, 1⟩]

/-- One ordinary unit-burst process, used for the quantum-0 divergence. -/
def unitProc : Process := ⟨"C", 0, 1, 0⟩

/-! ### Predicates and relations used by the proofs -/

/-- The sub-timeline attributed to one process id. -/
def byId (i : String) (g : Timeline) : Timeline :=
  g.filter (fun e => e.1 = i)

/-- Number of records with a given id. -/
def idCount (i : String) (l : List Process) : Nat :=
  (l.filter (fun p => p.id = i)).length

/-- Total remaining burst over a list of processes, per the `remaining`
dict. -/
def remSum (rem : Dict) (l : List Process) : Int :=
  l.foldr (fun p m => (dlookup p.id rem).getD 0 + m) 0

/-- Non-overlap shape of a timeline: starts are non-decreasing and every
interval starts no earlier than the previous interval finishes. -/
def TimelineOk (g : Timeline) : Prop :=
  g.Pairwise (fun a b => a.2.1 ≤ b.2.1) ∧ g.Pairwise (fun a b => a.2.2 ≤ b.2.1)

/-- `finMatches fin time l` — along the FCFS fold of `l` from clock
`time`, the dict `fin` records each process's finish time. -/
def finMatches (fin : Dict) : Int → List Process → Prop
  | _, [] => True
  | time, p :: rest =>
    dlookup p.id fin = some ((if time < p.arrival then p.arrival else time) + p.burst) ∧
    finMatches fin ((if time < p.arrival then p.arrival else time) + p.burst) rest

/-- `a` precedes `b` in the spec's tie-break order: strictly earlier
arrival, or equal arrival and strictly earlier position in the input
list. -/
def lexBefore (ps : List Process) (a b : Process) : Prop :=
  a.arrival < b.arrival ∨ (a.arrival = b.arrival ∧
    (ps.map Process.id).indexOf a.id < (ps.map Process.id).indexOf b.id)


/-! ### The master invariant of the non-preemptive loops

`NPInv ps s` holds of every state the `sjf` / `priority_scheduling` loop
reaches from `npInit ps`, for a valid input `ps`, whatever (permutation)
sort is applied to the ready list.  It records the per-process accounting
from which conservation, non-overlap, non-preemption and the metric
identities are read off at the final state. -/

structure NPInv (ps : List Process) (s : NPState) : Prop where
  restMem : ∀ p ∈ s.rest, p ∈ sortByArrival ps
  readyMem : ∀ p ∈ s.ready, p ∈ sortByArrival ps
  restSorted : s.rest.Pairwise (fun a b => a.arrival ≤ b.arrival)
  readyArr : ∀ p ∈ s.ready, p.arrival ≤ s.time
  acct : ∀ p ∈ sortByArrival ps,
      (idCount p.id (s.rest ++ s.ready) = 1 ∧ byId p.id s.gantt = [] ∧
        dlookup p.id s.w = none ∧ dlookup p.id s.t = none) ∨
      (idCount p.id (s.rest ++ s.ready) = 0 ∧
        ∃ st, byId p.id s.gantt = [(p.id, st, st + p.burst)] ∧ p.arrival ≤ st ∧
          dlookup p.id s.w = some (st - p.arrival) ∧
          dlookup p.id s.t = some (st + p.burst - p.arrival))
  chron : s.gantt.Pairwise (fun a b => a.2.2 ≤ b.2.1)
  bounds : ∀ e ∈ s.gantt, e.2.1 ≤ e.2.2 ∧ e.2.2 ≤ s.time
  wDom : ∀ k, (dlookup k s.w).isSome → k ∈ (sortByArrival ps).map Process.id
  tDom : ∀ k, (dlookup k s.t).isSome → k ∈ (sortByArrival ps).map Process.id
  timeSum : s.time + sumBurst (s.rest ++ s.ready) ≤ maxArrival ps + sumBurst ps
  pendSum : sumBurst (s.rest ++ s.ready) ≤ sumBurst ps


/-! ### The master invariant of the round robin loop -/

structure RRInv (ps : List Process) (s : RRState) : Prop where
  restMem : ∀ p ∈ s.rest, p ∈ sortByArrival ps
  queueMem : ∀ p ∈ s.queue, p ∈ sortByArrival ps
  restSorted : s.rest.Pairwise (fun a b => a.arrival ≤ b.arrival)
  pendNodup : ((s.queue ++ s.rest).map Process.id).Nodup
  acct : ∀ p ∈ sortByArrival ps,
      (idCount p.id s.rest = 1 ∧ idCount p.id s.queue = 0 ∧
        dlookup p.id s.rem = some p.burst ∧ dlookup p.id s.fin = none ∧
        byId p.id s.gantt = []) ∨
      (idCount p.id s.rest = 0 ∧ idCount p.id s.queue = 1 ∧
        dlookup p.id s.fin = none ∧ p.arrival ≤ s.time ∧
        (∃ r, dlookup p.id s.rem = some r ∧ 1 ≤ r ∧ r ≤ p.burst ∧
          sumDur p.id s.gantt = p.burst - r ∧ p.arrival + (p.burst - r) ≤ s.time)) ∨
      (idCount p.id s.rest = 0 ∧ idCount p.id s.queue = 0 ∧
        dlookup p.id s.rem = some 0 ∧ sumDur p.id s.gantt = p.burst ∧
        (∃ f, dlookup p.id s.fin = some f ∧ p.arrival + p.burst ≤ f ∧ f ≤ s.time))
  chron : s.gantt.Pairwise (fun a b => a.2.2 ≤ b.2.1)
  bounds : ∀ e ∈ s.gantt, e.2.1 ≤ e.2.2 ∧ e.2.2 ≤ s.time
  timeSum : s.time + remSum s.rem (s.queue ++ s.rest) ≤ maxArrival ps + sumBurst ps
  pendSum : remSum s.rem (s.queue ++ s.rest) ≤ sumBurst ps

/-- Simulation relation between the round robin loop state and the FCFS
fold, valid when every burst fits in the quantum. -/
structure RRSim (ps : List Process) (s : RRState) : Prop where
  split : ∃ pre, sortByArrival ps = pre ++ (s.queue ++ s.rest) ∧
    s.gantt.map Prod.fst = pre.map Process.id
  queueArr : ∀ p ∈ s.queue, p.arrival ≤ s.time
  remFull : ∀ p ∈ s.queue ++ s.rest, dlookup p.id s.rem = some p.burst
  ganttFin : ∀ e ∈ s.gantt, dlookup e.1 s.fin = some e.2.2
  fgo : ∃ w₀ t₀, fcfsGo s.time s.gantt w₀ t₀ (s.queue ++ s.rest) = fcfs ps

/-- The states the `sjf` loop passes through, starting from `npInit`. -/
inductive SjfReach (ps : List Process) : NPState → Prop where
  | init : SjfReach ps (npInit ps)
  | step (s : NPState) (h : SjfReach ps s) (hnd : ¬ npDone s) :
      SjfReach ps (npStep sortByBurst s)

/-- Tie-break bookkeeping for the `sjf` loop: equal-burst ready members
stand in tie-break order, every ready member arrived strictly before
every unadmitted one, and the unadmitted processes form a suffix of the
arrival-sorted input. -/
structure SjfTie (ps : List Process) (s : NPState) : Prop where
  readyTies : s.ready.Pairwise (fun a b => a.burst = b.burst → lexBefore ps a b)
  crossArr : ∀ a ∈ s.ready, ∀ b ∈ s.rest, a.arrival < b.arrival
  restSuf : ∃ u, u ++ s.rest = sortByArrival ps

/-! ### C1 -/

/-- C1 counterexample: on the §8 example with quantum 2, `round_robin` does
not return the timeline and metrics claimed by the spec (the claimed
timeline `P1:[0,2) P2:[2,4) P1:[4,6) ...` with waiting `{P1:5,P2:5,P3:6}`).
P3 arrives at t = 2, so the inner admission loop enqueues it before the
preempted P1 is requeued, and the third slice is `P3:[4,6)`, not
`P1:[4,6)`. -/
theorem C1_counterexample : round_robin exampleProcs 2 ≠
    some ([("P1", 0, 2), ("P2", 2, 4), ("P1", 4, 6), ("P3", 6, 8), ("P2", 8, 9),
           ("P1", 9, 10), ("P3", 10, 12), ("P3", 12, 16)],
          [("P1", 5), ("P2", 5), ("P3", 6)],
          [("P1", 10), ("P2", 8), ("P3", 14)]) := by decide

/-- C1 (amended): on the example process set with quantum 2, `round_robin`
returns the timeline `P1:[0,2) P2:[2,4) P3:[4,6) P1:[6,8) P2:[8,9)
P3:[9,11) P1:[11,12) P3:[12,14) P3:[14,16)` with waiting times
`{P1:7, P2:5, P3:6}` and turnaround times `{P1:12, P2:8, P3:14}`. -/
theorem C1_amended_theorem : round_robin exampleProcs 2 =
    some ([("P1", 0, 2), ("P2", 2, 4), ("P3", 4, 6), ("P1", 6, 8), ("P2", 8, 9),
           ("P3", 9, 11), ("P1", 11, 12), ("P3", 12, 14), ("P3", 14, 16)],
          [("P1", 7), ("P2", 5), ("P3", 6)],
          [("P1", 12), ("P2", 8), ("P3", 14)]) := by decide

/-! ### C2 -/

/-- C2 counterexample: `fcfs` on a collection with a duplicate id does not
fail before producing simulation output — the source contains no
validation and no exception path, so the run completes and returns a
Schedule Result (with the two same-id records sharing one dict entry). -/
theorem C2_counterexample :
    fcfs dupProcs = ([("A", 0, 2), ("A", 2, 5)], [("A", 2)], [("A", 5)]) := by decide

/-- C2 (amended): the scheduling functions perform no input validation; on
an invalid collection (duplicate id, or negative arrival with non-positive
burst) each of the four functions still runs the simulation and returns a
Schedule Result. -/
theorem C2_amended_theorem :
    fcfs dupProcs = ([("A", 0, 2), ("A", 2, 5)], [("A", 2)], [("A", 5)]) ∧
    sjf dupProcs = some ([("A", 0, 2), ("A", 2, 5)], [("A", 2)], [("A", 5)]) ∧
    priority_scheduling dupProcs =
      some ([("A", 0, 2), ("A", 2, 5)], [("A", 2)], [("A", 5)]) ∧
    round_robin dupProcs 2 =
      some ([("A", 0, 2), ("A", 2, 3), ("A", 3, 3)], [("A", 0)], [("A", 3)]) ∧
    fcfs negProcs = ([("B", 0, -2)], [("B", 1)], [("B", -1)]) :=
  ⟨by decide, by decide, by decide, by decide, by decide⟩

/-! ### C3 -/

/-- C3 counterexample: `round_robin` with quantum 0 on the empty collection
does not fail — it returns the empty Schedule Result. -/
theorem C3_counterexample : round_robin [] 0 = some ([], [], []) := by decide

/-- With quantum 0 the loop cycles on a unit process: the front of the
queue executes `min(0, 1) = 0` time units, its remaining burst stays 1,
the clock does not advance, and it is requeued — only the emitted
zero-length intervals accumulate. -/
theorem rrLoop_quantum0_cycle (fuel : Nat) : ∀ g : Timeline,
    rrLoop 0 fuel ⟨[], [unitProc], 0, [("C", 1)], g, []⟩ = none := by
  induction fuel with
  | zero => intro g; rfl
  | succ n ih =>
    intro g
    have h : rrLoop 0 (n + 1) ⟨[], [unitProc], 0, [("C", 1)], g, []⟩ =
        rrLoop 0 n ⟨[], [unitProc], 0, [("C", 1)], g ++ [("C", 0, 0)], []⟩ := rfl
    rw [h]; exact ih (g ++ [("C", 0, 0)])

/-- C3 (amended): `round_robin` performs no quantum validation.  With
quantum 0 it returns the empty result on the empty collection, and on a
collection holding a positive-burst process the simulation loop never
terminates: it returns fuel exhaustion for every fuel bound, so in
particular `round_robin` itself returns no result. -/
theorem C3_amended_theorem :
    (∀ fuel : Nat, rrLoop 0 fuel (rrInit [unitProc]) = none) ∧
    round_robin [unitProc] 0 = none ∧
    round_robin [] 0 = some ([], [], []) := by
  have hloop : ∀ fuel : Nat, rrLoop 0 fuel (rrInit [unitProc]) = none := by
    intro fuel
    cases fuel with
    | zero => rfl
    | succ n =>
      have h : rrLoop 0 (n + 1) (rrInit [unitProc]) =
          rrLoop 0 n ⟨[], [unitProc], 0, [("C", 1)], [("C", 0, 0)], []⟩ := rfl
      rw [h]; exact rrLoop_quantum0_cycle n [("C", 0, 0)]
  refine ⟨hloop, ?_, by decide⟩
  show (match rrLoop 0 (loopFuel [unitProc]) (rrInit [unitProc]) with
        | none => none
        | some s => (rrFinGo s.fin [] [] (sortByArrival [unitProc])).map
            fun wt => (s.gantt, wt.1, wt.2)) = none
  rw [hloop (loopFuel [unitProc])]

/-! ### Dictionary lemmas -/

theorem dlookup_dinsert_self (k : String) (v : Int) (d : Dict) :
    dlookup k (dinsert k v d) = some v := by
  induction d with
  | nil => simp [dinsert, dlookup]
  | cons kv rest ih =>
    obtain ⟨k', v'⟩ := kv
    by_cases h : k' = k
    · subst h; simp [dinsert, dlookup]
    · simp [dinsert, dlookup, h, ih]

theorem dlookup_dinsert_ne {k i : String} (v : Int) (d : Dict) (h : k ≠ i) :
    dlookup k (dinsert i v d) = dlookup k d := by
  have hik : ¬ (i = k) := fun hh => h hh.symm
  induction d with
  | nil => simp [dinsert, dlookup, hik]
  | cons kv rest ih =>
    obtain ⟨k', v'⟩ := kv
    by_cases h' : k' = i
    · simp [dinsert, dlookup, h', hik]
    · simp [dinsert, dlookup, h', ih]

theorem dlookup_dinsert_isSome {k i : String} (v : Int) (d : Dict)
    (h : (dlookup k d).isSome) : (dlookup k (dinsert i v d)).isSome := by
  by_cases hk : k = i
  · subst hk; simp [dlookup_dinsert_self]
  · rwa [dlookup_dinsert_ne v d hk]

theorem dlookup_dinsert_isSome_iff {k i : String} (v : Int) (d : Dict) :
    (dlookup k (dinsert i v d)).isSome ↔ k = i ∨ (dlookup k d).isSome := by
  by_cases hk : k = i
  · subst hk; simp [dlookup_dinsert_self]
  · rw [dlookup_dinsert_ne v d hk]; simp [hk]

/-! ### Timeline bookkeeping lemmas -/

theorem sumDur_append (i : String) (g h : Timeline) :
    sumDur i (g ++ h) = sumDur i g + sumDur i h := by
  induction g with
  | nil => simp [sumDur]
  | cons e g' ih =>
    obtain ⟨j, a, b⟩ := e
    simp [sumDur, ih]; ring

theorem countId_append (i : String) (g h : Timeline) :
    countId i (g ++ h) = countId i g + countId i h := by
  induction g with
  | nil => simp [countId]
  | cons e g' ih =>
    obtain ⟨j, a, b⟩ := e
    simp [countId, ih]; ring

theorem byId_append (i : String) (g h : Timeline) :
    byId i (g ++ h) = byId i g ++ byId i h := by
  simp [byId, List.filter_append]

theorem sumDur_eq_byId (i : String) (g : Timeline) :
    sumDur i g = sumDur i (byId i g) := by
  induction g with
  | nil => rfl
  | cons e g' ih =>
    obtain ⟨j, a, b⟩ := e
    by_cases h : j = i
    · subst h
      have hb : byId j ((j, a, b) :: g') = (j, a, b) :: byId j g' := by simp [byId]
      rw [hb]
      simp only [sumDur, if_pos rfl]
      rw [ih]
    · have hb : byId i ((j, a, b) :: g') = byId i g' := by simp [byId, h]
      rw [hb]
      simp only [sumDur, if_neg h]
      rw [ih]
      ring

theorem countId_eq_byId_length (i : String) (g : Timeline) :
    countId i g = (byId i g).length := by
  induction g with
  | nil => rfl
  | cons e g' ih =>
    obtain ⟨j, a, b⟩ := e
    by_cases h : j = i
    · subst h; simp [countId, byId, ih]; omega
    · simp [countId, byId, h, ih]

theorem idCount_append (i : String) (l m : List Process) :
    idCount i (l ++ m) = idCount i l + idCount i m := by
  simp [idCount, List.filter_append]

/-! ### Sum and max lemmas -/

theorem sumBurst_append (l m : List Process) :
    sumBurst (l ++ m) = sumBurst l + sumBurst m := by
  induction l with
  | nil => simp [sumBurst]
  | cons p l' ih => simp [sumBurst] at ih ⊢; rw [ih]; ring

theorem sumBurst_eq_sum (l : List Process) :
    sumBurst l = (l.map Process.burst).sum := by
  induction l with
  | nil => rfl
  | cons p l' ih => simp [sumBurst] at ih ⊢; rw [ih]

theorem sumBurst_perm {l m : List Process} (h : l.Perm m) :
    sumBurst l = sumBurst m := by
  rw [sumBurst_eq_sum, sumBurst_eq_sum, (h.map Process.burst).sum_eq]

theorem sumBurst_nonneg {l : List Process} (h : ∀ p ∈ l, 0 ≤ p.burst) :
    0 ≤ sumBurst l := by
  induction l with
  | nil => simp [sumBurst]
  | cons p l' ih =>
    simp [sumBurst] at ih ⊢
    have h1 := h p (by simp)
    have h2 := ih fun q hq => h q (by simp [hq])
    omega

theorem arrival_le_maxArrival {p : Process} {ps : List Process} (h : p ∈ ps) :
    p.arrival ≤ maxArrival ps := by
  induction ps with
  | nil => cases h
  | cons q l ih =>
    have hm : maxArrival (q :: l) = max q.arrival (maxArrival l) := rfl
    rw [hm]
    rcases List.mem_cons.mp h with h' | h'
    · subst h'; exact le_max_left _ _
    · exact le_trans (ih h') (le_max_right _ _)

theorem maxArrival_nonneg (ps : List Process) : 0 ≤ maxArrival ps := by
  induction ps with
  | nil => exact le_refl 0
  | cons q l ih =>
    have hm : maxArrival (q :: l) = max q.arrival (maxArrival l) := rfl
    rw [hm]
    exact le_trans ih (le_max_right _ _)

/-! ### Stable sort facts -/

theorem sortByArrival_perm (ps : List Process) : (sortByArrival ps).Perm ps :=
  List.perm_insertionSort _ _

theorem sortByBurst_perm (ps : List Process) : (sortByBurst ps).Perm ps :=
  List.perm_insertionSort _ _

theorem sortByPriority_perm (ps : List Process) : (sortByPriority ps).Perm ps :=
  List.perm_insertionSort _ _

theorem sortByArrival_sorted (ps : List Process) :
    (sortByArrival ps).Pairwise (fun a b => a.arrival ≤ b.arrival) := by
  haveI : IsTotal Process (fun a b => a.arrival ≤ b.arrival) := ⟨fun a b => le_total _ _⟩
  haveI : IsTrans Process (fun a b => a.arrival ≤ b.arrival) :=
    ⟨fun _ _ _ h1 h2 => le_trans h1 h2⟩
  exact List.sorted_insertionSort _ ps

/-! ### Generic facts about the fuel-indexed loops -/

theorem npLoop_inv (sr : List Process → List Process) (Inv : NPState → Prop)
    (hstep : ∀ s, Inv s → ¬ npDone s → Inv (npStep sr s)) :
    ∀ fuel s s', Inv s → npLoop sr fuel s = some s' → Inv s' ∧ npDone s' := by
  intro fuel
  induction fuel with
  | zero =>
    intro s s' hi h
    simp only [npLoop] at h
    by_cases hd : npDone s
    · rw [if_pos hd] at h; cases h; exact ⟨hi, hd⟩
    · rw [if_neg hd] at h; cases h
  | succ n ih =>
    intro s s' hi h
    simp only [npLoop] at h
    by_cases hd : npDone s
    · rw [if_pos hd] at h; cases h; exact ⟨hi, hd⟩
    · rw [if_neg hd] at h; exact ih _ _ (hstep s hi hd) h

theorem npLoop_term (sr : List Process → List Process) (Inv : NPState → Prop)
    (M : NPState → Nat)
    (hstep : ∀ s, Inv s → ¬ npDone s → Inv (npStep sr s) ∧ M (npStep sr s) < M s) :
    ∀ fuel s, Inv s → M s ≤ fuel → ∃ s', npLoop sr fuel s = some s' := by
  intro fuel
  induction fuel with
  | zero =>
    intro s hi hm
    by_cases hd : npDone s
    · exact ⟨s, by simp [npLoop, hd]⟩
    · exact absurd (hstep s hi hd).2 (by omega)
  | succ n ih =>
    intro s hi hm
    by_cases hd : npDone s
    · exact ⟨s, by simp [npLoop, hd]⟩
    · obtain ⟨h1, h2⟩ := hstep s hi hd
      obtain ⟨s', hs'⟩ := ih (npStep sr s) h1 (by omega)
      exact ⟨s', by simp [npLoop, hd, hs']⟩

theorem rrLoop_inv (q : Int) (Inv : RRState → Prop)
    (hstep : ∀ s, Inv s → ¬ rrDone s → Inv (rrStep q s)) :
    ∀ fuel s s', Inv s → rrLoop q fuel s = some s' → Inv s' ∧ rrDone s' := by
  intro fuel
  induction fuel with
  | zero =>
    intro s s' hi h
    simp only [rrLoop] at h
    by_cases hd : rrDone s
    · rw [if_pos hd] at h; cases h; exact ⟨hi, hd⟩
    · rw [if_neg hd] at h; cases h
  | succ n ih =>
    intro s s' hi h
    simp only [rrLoop] at h
    by_cases hd : rrDone s
    · rw [if_pos hd] at h; cases h; exact ⟨hi, hd⟩
    · rw [if_neg hd] at h; exact ih _ _ (hstep s hi hd) h

theorem rrLoop_term (q : Int) (Inv : RRState → Prop) (M : RRState → Nat)
    (hstep : ∀ s, Inv s → ¬ rrDone s → Inv (rrStep q s) ∧ M (rrStep q s) < M s) :
    ∀ fuel s, Inv s → M s ≤ fuel → ∃ s', rrLoop q fuel s = some s' := by
  intro fuel
  induction fuel with
  | zero =>
    intro s hi hm
    by_cases hd : rrDone s
    · exact ⟨s, by simp [rrLoop, hd]⟩
    · exact absurd (hstep s hi hd).2 (by omega)
  | succ n ih =>
    intro s hi hm
    by_cases hd : rrDone s
    · exact ⟨s, by simp [rrLoop, hd]⟩
    · obtain ⟨h1, h2⟩ := hstep s hi hd
      obtain ⟨s', hs'⟩ := ih (rrStep q s) h1 (by omega)
      exact ⟨s', by simp [rrLoop, hd, hs']⟩

/-! ### Id-count helpers -/

theorem idCount_cons (i : String) (q : Process) (l : List Process) :
    idCount i (q :: l) = (if q.id = i then 1 else 0) + idCount i l := by
  by_cases h : q.id = i <;> simp [idCount, List.filter_cons, h] <;> omega

theorem idCount_perm {i : String} {l m : List Process} (h : l.Perm m) :
    idCount i l = idCount i m :=
  (h.filter _).length_eq

theorem idCount_eq_zero_of_not_mem {i : String} {l : List Process}
    (h : i ∉ l.map Process.id) : idCount i l = 0 := by
  induction l with
  | nil => rfl
  | cons q l' ih =>
    rw [idCount_cons]
    have h1 : ¬ q.id = i := fun hq => h (by simp [hq])
    have h2 : i ∉ l'.map Process.id := fun hm => h (by simp [hm])
    simp [h1, ih h2]

theorem idCount_pos_of_mem {p : Process} {l : List Process} (h : p ∈ l) :
    1 ≤ idCount p.id l := by
  induction l with
  | nil => cases h
  | cons q l' ih =>
    rw [idCount_cons]
    rcases List.mem_cons.mp h with h' | h'
    · subst h'; simp
    · have := ih h'; omega

theorem idCount_eq_one_of_nodup {p : Process} {l : List Process}
    (hn : (l.map Process.id).Nodup) (h : p ∈ l) : idCount p.id l = 1 := by
  induction l with
  | nil => cases h
  | cons q l' ih =>
    rw [idCount_cons]
    have hn' : (l'.map Process.id).Nodup := (List.nodup_cons.mp hn).2
    rcases List.mem_cons.mp h with h' | h'
    · subst h'
      have : p.id ∉ l'.map Process.id := (List.nodup_cons.mp hn).1
      simp [idCount_eq_zero_of_not_mem this]
    · have hq : ¬ q.id = p.id := by
        intro he
        exact (List.nodup_cons.mp hn).1 (he ▸ List.mem_map_of_mem Process.id h')
      simp [hq, ih hn' h']

/-- `npStep` with its let-bindings and match laid out, for rewriting. -/
theorem npStep_eq (sr : List Process → List Process) (s : NPState) : npStep sr s =
    (if s.ready ++ s.rest.takeWhile (fun p => p.arrival ≤ s.time) = [] then
      { rest := s.rest.dropWhile (fun p => p.arrival ≤ s.time),
        ready := s.ready ++ s.rest.takeWhile (fun p => p.arrival ≤ s.time),
        time := s.time + 1, gantt := s.gantt, w := s.w, t := s.t }
    else
      match sr (s.ready ++ s.rest.takeWhile (fun p => p.arrival ≤ s.time)) with
      | [] => s
      | p :: qs =>
        { rest := s.rest.dropWhile (fun p => p.arrival ≤ s.time), ready := qs,
          time := s.time + p.burst,
          gantt := s.gantt ++ [(p.id, s.time, s.time + p.burst)],
          w := dinsert p.id (s.time - p.arrival) s.w,
          t := dinsert p.id (s.time + p.burst - p.arrival) s.t }) := rfl

/-- The invariant holds initially. -/
theorem npInv_init (ps : List Process) (hv : ValidInput ps) : NPInv ps (npInit ps) := by
  have hnodup : ((sortByArrival ps).map Process.id).Nodup :=
    (((sortByArrival_perm ps).map Process.id).nodup_iff).mpr hv.2.2
  have hperm := sortByArrival_perm ps
  refine ⟨?_, ?_, ?_, ?_, ?_, ?_, ?_, ?_, ?_, ?_, ?_⟩
  · intro p hp; exact hp
  · intro p hp; cases hp
  · exact sortByArrival_sorted ps
  · intro p hp; cases hp
  · intro p hp
    left
    refine ⟨?_, rfl, rfl, rfl⟩
    show idCount p.id (sortByArrival ps ++ []) = 1
    rw [List.append_nil]
    exact idCount_eq_one_of_nodup hnodup hp
  · exact List.Pairwise.nil
  · intro e he; cases he
  · intro k hk; simp [dlookup] at hk
  · intro k hk; simp [dlookup] at hk
  · show (0 : Int) + sumBurst (sortByArrival ps ++ []) ≤ _
    rw [List.append_nil, sumBurst_perm hperm]
    have := maxArrival_nonneg ps
    omega
  · show sumBurst (sortByArrival ps ++ []) ≤ _
    rw [List.append_nil, sumBurst_perm hperm]

theorem sumBurst_cons (p : Process) (l : List Process) :
    sumBurst (p :: l) = p.burst + sumBurst l := rfl

theorem byId_single_eq (i : String) (st f : Int) : byId i [(i, st, f)] = [(i, st, f)] := by
  simp [byId]

theorem byId_single_ne {i j : String} (h : ¬ j = i) (st f : Int) : byId i [(j, st, f)] = [] := by
  simp [byId, h]

/-- Members of the ready list after admission are input processes that
have already arrived. -/
theorem npReady'_facts (ps : List Process) (s : NPState) (hI : NPInv ps s) :
    ∀ p ∈ s.ready ++ s.rest.takeWhile (fun p => p.arrival ≤ s.time),
      p ∈ sortByArrival ps ∧ p.arrival ≤ s.time := by
  intro p hp
  rcases List.mem_append.mp hp with h | h
  · exact ⟨hI.readyMem p h, hI.readyArr p h⟩
  · have hm : p ∈ s.rest := (List.takeWhile_sublist _).mem h
    refine ⟨hI.restMem p hm, ?_⟩
    simpa using List.mem_takeWhile_imp h

/-- Preservation of the invariant by an idle step. -/
theorem npInv_step_idle (sr : List Process → List Process)
    (ps : List Process) (s : NPState) (hI : NPInv ps s) (hnd : ¬ npDone s)
    (hready : s.ready ++ s.rest.takeWhile (fun p => p.arrival ≤ s.time) = []) :
    NPInv ps (npStep sr s) ∧ s.time + 1 ≤ (npStep sr s).time := by
  have hrd : s.ready = [] := (List.append_eq_nil.mp hready).1
  have had : s.rest.takeWhile (fun p => p.arrival ≤ s.time) = [] :=
    (List.append_eq_nil.mp hready).2
  have hdrop : s.rest.dropWhile (fun p => p.arrival ≤ s.time) = s.rest := by
    have h := List.takeWhile_append_dropWhile (fun p => decide (p.arrival ≤ s.time)) s.rest
    rw [had] at h
    simpa using h
  have hstep : npStep sr s =
      { rest := s.rest, ready := [], time := s.time + 1,
        gantt := s.gantt, w := s.w, t := s.t } := by
    rw [npStep_eq, if_pos hready, hready, hdrop]
  have hrest_ne : s.rest ≠ [] := fun h0 => hnd ⟨h0, hrd⟩
  obtain ⟨q, l, hql⟩ := List.exists_cons_of_ne_nil hrest_ne
  have hq : s.time < q.arrival := by
    by_contra hc
    push_neg at hc
    have hne : s.rest.takeWhile (fun p => p.arrival ≤ s.time) ≠ [] := by
      rw [hql]
      simp [List.takeWhile_cons, hc]
    exact hne had
  have hqmax : q.arrival ≤ maxArrival ps :=
    arrival_le_maxArrival ((sortByArrival_perm ps).subset (hI.restMem q (by rw [hql]; simp)))
  have hsums : sumBurst (s.rest ++ s.ready) = sumBurst s.rest := by rw [hrd, List.append_nil]
  rw [hstep]
  refine ⟨⟨hI.restMem, ?_, hI.restSorted, ?_, ?_, hI.chron, ?_, hI.wDom, hI.tDom, ?_, ?_⟩, ?_⟩
  · intro p hp; cases hp
  · intro p hp; cases hp
  · intro p hp
    have h := hI.acct p hp
    rw [hrd] at h
    exact h
  · intro e he
    refine ⟨(hI.bounds e he).1, ?_⟩
    show e.2.2 ≤ s.time + 1
    have := (hI.bounds e he).2
    omega
  · show s.time + 1 + sumBurst (s.rest ++ []) ≤ _
    rw [List.append_nil]
    have h1 := hI.pendSum
    rw [hsums] at h1
    omega
  · show sumBurst (s.rest ++ []) ≤ _
    rw [List.append_nil]
    have h1 := hI.pendSum
    rw [hsums] at h1
    exact h1
  · show s.time + 1 ≤ s.time + 1
    omega

/-- Preservation of the invariant by a run step (the chosen process is the
front of the sorted ready list). -/
theorem npInv_step_run (sr : List Process → List Process)
    (ps : List Process) (hv : ValidInput ps) (s : NPState) (hI : NPInv ps s)
    (p₀ : Process) (qs : List Process)
    (hsrt : sr (s.ready ++ s.rest.takeWhile (fun p => p.arrival ≤ s.time)) = p₀ :: qs)
    (hqperm : (p₀ :: qs).Perm (s.ready ++ s.rest.takeWhile (fun p => p.arrival ≤ s.time))) :
    NPInv ps (npStep sr s) ∧ s.time + 1 ≤ (npStep sr s).time := by
  have hnodup : ((sortByArrival ps).map Process.id).Nodup :=
    (((sortByArrival_perm ps).map Process.id).nodup_iff).mpr hv.2.2
  have hready : s.ready ++ s.rest.takeWhile (fun p => p.arrival ≤ s.time) ≠ [] := by
    intro h0
    rw [h0] at hqperm
    exact List.cons_ne_nil _ _ hqperm.eq_nil
  have hstep : npStep sr s =
      { rest := s.rest.dropWhile (fun p => p.arrival ≤ s.time), ready := qs,
        time := s.time + p₀.burst,
        gantt := s.gantt ++ [(p₀.id, s.time, s.time + p₀.burst)],
        w := dinsert p₀.id (s.time - p₀.arrival) s.w,
        t := dinsert p₀.id (s.time + p₀.burst - p₀.arrival) s.t } := by
    rw [npStep_eq, if_neg hready, hsrt]
  have hfacts := npReady'_facts ps s hI
  have hp₀r : p₀ ∈ s.ready ++ s.rest.takeWhile (fun p => p.arrival ≤ s.time) :=
    hqperm.subset (List.mem_cons_self _ _)
  have hp₀S : p₀ ∈ sortByArrival ps := (hfacts p₀ hp₀r).1
  have hp₀arr : p₀.arrival ≤ s.time := (hfacts p₀ hp₀r).2
  have hb₀ : 1 ≤ p₀.burst := hv.1 p₀ ((sortByArrival_perm ps).subset hp₀S)
  have hp₀pend : p₀ ∈ s.rest ++ s.ready := by
    rcases List.mem_append.mp hp₀r with h | h
    · exact List.mem_append_right _ h
    · exact List.mem_append_left _ ((List.takeWhile_sublist _).mem h)
  have hpend : ((s.rest.dropWhile (fun p => p.arrival ≤ s.time)) ++
      (s.ready ++ s.rest.takeWhile (fun p => p.arrival ≤ s.time))).Perm
      (s.rest ++ s.ready) := by
    conv_rhs =>
      rw [← List.takeWhile_append_dropWhile (fun p => decide (p.arrival ≤ s.time)) s.rest]
    refine (List.Perm.append_left _ List.perm_append_comm).trans ?_
    rw [← List.append_assoc]
    exact List.Perm.append_right _ List.perm_append_comm
  have hpend2 : (p₀ :: (s.rest.dropWhile (fun p => p.arrival ≤ s.time) ++ qs)).Perm
      (s.rest ++ s.ready) :=
    List.perm_middle.symm.trans
      ((hqperm.append_left (s.rest.dropWhile (fun p => p.arrival ≤ s.time))).trans hpend)
  have hcnt : ∀ i, (if p₀.id = i then 1 else 0) +
      idCount i (s.rest.dropWhile (fun p => p.arrival ≤ s.time) ++ qs) =
      idCount i (s.rest ++ s.ready) := by
    intro i
    have h := idCount_perm (i := i) hpend2
    rw [idCount_cons] at h
    exact h
  have hsump : p₀.burst + sumBurst (s.rest.dropWhile (fun p => p.arrival ≤ s.time) ++ qs) =
      sumBurst (s.rest ++ s.ready) := by
    have h := sumBurst_perm hpend2
    rw [sumBurst_cons] at h
    exact h
  rw [hstep]
  refine ⟨⟨?_, ?_, ?_, ?_, ?_, ?_, ?_, ?_, ?_, ?_, ?_⟩, ?_⟩
  · intro p hp
    exact hI.restMem p ((List.dropWhile_sublist _).mem hp)
  · intro p hp
    exact (hfacts p (hqperm.subset (List.mem_cons_of_mem _ hp))).1
  · exact hI.restSorted.sublist (List.dropWhile_sublist _)
  · intro p hp
    show p.arrival ≤ s.time + p₀.burst
    have := (hfacts p (hqperm.subset (List.mem_cons_of_mem _ hp))).2
    omega
  · intro p hp
    by_cases hid : p.id = p₀.id
    · have hpp : p = p₀ := List.inj_on_of_nodup_map hnodup hp hp₀S hid
      subst hpp
      rcases hI.acct p hp with ⟨h1, h2, h3, h4⟩ | ⟨h1, _⟩
      · right
        refine ⟨?_, s.time, ?_, hp₀arr, ?_, ?_⟩
        · have h := hcnt p.id
          rw [h1] at h
          simp at h
          show idCount p.id (s.rest.dropWhile (fun p => p.arrival ≤ s.time) ++ qs) = 0
          omega
        · show byId p.id (s.gantt ++ [(p.id, s.time, s.time + p.burst)]) =
            [(p.id, s.time, s.time + p.burst)]
          rw [byId_append, h2, byId_single_eq, List.nil_append]
        · exact dlookup_dinsert_self _ _ _
        · exact dlookup_dinsert_self _ _ _
      · exact absurd (idCount_pos_of_mem hp₀pend) (by omega)
    · have hidne : ¬ p₀.id = p.id := fun h => hid h.symm
      rcases hI.acct p hp with ⟨h1, h2, h3, h4⟩ | ⟨h1, st, h2, h3, h4, h5⟩
      · left
        refine ⟨?_, ?_, ?_, ?_⟩
        · have h := hcnt p.id
          rw [if_neg hidne] at h
          show idCount p.id (s.rest.dropWhile (fun p => p.arrival ≤ s.time) ++ qs) = 1
          omega
        · show byId p.id (s.gantt ++ [(p₀.id, s.time, s.time + p₀.burst)]) = []
          rw [byId_append, h2, byId_single_ne hidne, List.append_nil]
        · show dlookup p.id (dinsert p₀.id (s.time - p₀.arrival) s.w) = none
          rw [dlookup_dinsert_ne _ _ hid, h3]
        · show dlookup p.id (dinsert p₀.id (s.time + p₀.burst - p₀.arrival) s.t) = none
          rw [dlookup_dinsert_ne _ _ hid, h4]
      · right
        refine ⟨?_, st, ?_, h3, ?_, ?_⟩
        · have h := hcnt p.id
          rw [if_neg hidne] at h
          show idCount p.id (s.rest.dropWhile (fun p => p.arrival ≤ s.time) ++ qs) = 0
          omega
        · show byId p.id (s.gantt ++ [(p₀.id, s.time, s.time + p₀.burst)]) =
            [(p.id, st, st + p.burst)]
          rw [byId_append, h2, byId_single_ne hidne, List.append_nil]
        · show dlookup p.id (dinsert p₀.id (s.time - p₀.arrival) s.w) = some (st - p.arrival)
          rw [dlookup_dinsert_ne _ _ hid, h4]
        · show dlookup p.id (dinsert p₀.id (s.time + p₀.burst - p₀.arrival) s.t) =
            some (st + p.burst - p.arrival)
          rw [dlookup_dinsert_ne _ _ hid, h5]
  · show (s.gantt ++ [(p₀.id, s.time, s.time + p₀.burst)]).Pairwise (fun a b => a.2.2 ≤ b.2.1)
    rw [List.pairwise_append]
    refine ⟨hI.chron, List.pairwise_singleton _ _, ?_⟩
    intro a ha b hb
    rw [List.mem_singleton] at hb
    subst hb
    show a.2.2 ≤ s.time
    exact (hI.bounds a ha).2
  · intro e he
    have he' : e ∈ s.gantt ++ [(p₀.id, s.time, s.time + p₀.burst)] := he
    rcases List.mem_append.mp he' with h | h
    · obtain ⟨hb1, hb2⟩ := hI.bounds e h
      refine ⟨hb1, ?_⟩
      show e.2.2 ≤ s.time + p₀.burst
      omega
    · rw [List.mem_singleton] at h
      subst h
      constructor
      · show s.time ≤ s.time + p₀.burst
        omega
      · show s.time + p₀.burst ≤ s.time + p₀.burst
        omega
  · intro k hk
    have hk' : (dlookup k (dinsert p₀.id (s.time - p₀.arrival) s.w)).isSome := hk
    rcases (dlookup_dinsert_isSome_iff _ _).mp hk' with h | h
    · subst h
      exact List.mem_map_of_mem Process.id hp₀S
    · exact hI.wDom k h
  · intro k hk
    have hk' : (dlookup k (dinsert p₀.id (s.time + p₀.burst - p₀.arrival) s.t)).isSome := hk
    rcases (dlookup_dinsert_isSome_iff _ _).mp hk' with h | h
    · subst h
      exact List.mem_map_of_mem Process.id hp₀S
    · exact hI.tDom k h
  · show s.time + p₀.burst +
      sumBurst (s.rest.dropWhile (fun p => p.arrival ≤ s.time) ++ qs) ≤
      maxArrival ps + sumBurst ps
    have h1 := hI.timeSum
    omega
  · show sumBurst (s.rest.dropWhile (fun p => p.arrival ≤ s.time) ++ qs) ≤ sumBurst ps
    have h1 := hI.pendSum
    omega
  · show s.time + 1 ≤ s.time + p₀.burst
    omega

/-- One step of the non-preemptive loop preserves the invariant and
strictly advances the clock. -/
theorem npInv_step (sr : List Process → List Process) (hsr : ∀ l, (sr l).Perm l)
    (ps : List Process) (hv : ValidInput ps) (s : NPState)
    (hI : NPInv ps s) (hnd : ¬ npDone s) :
    NPInv ps (npStep sr s) ∧ s.time + 1 ≤ (npStep sr s).time := by
  by_cases hready : s.ready ++ s.rest.takeWhile (fun p => p.arrival ≤ s.time) = []
  · exact npInv_step_idle sr ps s hI hnd hready
  · cases hsrt : sr (s.ready ++ s.rest.takeWhile (fun p => p.arrival ≤ s.time)) with
    | nil =>
      exfalso
      have h := hsr (s.ready ++ s.rest.takeWhile (fun p => p.arrival ≤ s.time))
      rw [hsrt] at h
      exact hready h.symm.eq_nil
    | cons p₀ qs =>
      have h := hsr (s.ready ++ s.rest.takeWhile (fun p => p.arrival ≤ s.time))
      rw [hsrt] at h
      exact npInv_step_run sr ps hv s hI p₀ qs hsrt h

/-- On a valid input the non-preemptive loop terminates within the fuel
bound, in a state satisfying the invariant and the exit condition. -/
theorem np_run_total (sr : List Process → List Process) (hsr : ∀ l, (sr l).Perm l)
    (ps : List Process) (hv : ValidInput ps) :
    ∃ s', npLoop sr (loopFuel ps) (npInit ps) = some s' ∧ NPInv ps s' ∧ npDone s' := by
  have hstep : ∀ s, NPInv ps s → ¬ npDone s →
      NPInv ps (npStep sr s) ∧
      (maxArrival ps + sumBurst ps + 1 - (npStep sr s).time).toNat <
        (maxArrival ps + sumBurst ps + 1 - s.time).toNat := by
    intro s hI hnd
    obtain ⟨hI', ht⟩ := npInv_step sr hsr ps hv s hI hnd
    refine ⟨hI', ?_⟩
    have hpend0 : 0 ≤ sumBurst (s.rest ++ s.ready) := by
      refine sumBurst_nonneg ?_
      intro p hp
      have hpS : p ∈ sortByArrival ps := by
        rcases List.mem_append.mp hp with h | h
        · exact hI.restMem p h
        · exact hI.readyMem p h
      have := hv.1 p ((sortByArrival_perm ps).subset hpS)
      omega
    have h1 := hI.timeSum
    omega
  obtain ⟨s', hs'⟩ := npLoop_term sr (NPInv ps)
    (fun s => (maxArrival ps + sumBurst ps + 1 - s.time).toNat) hstep
    (loopFuel ps) (npInit ps) (npInv_init ps hv)
    (by show (maxArrival ps + sumBurst ps + 1 - (0 : Int)).toNat ≤ loopFuel ps
        unfold loopFuel
        omega)
  obtain ⟨hI', hd⟩ := npLoop_inv sr (NPInv ps)
    (fun s hI hnd => (npInv_step sr hsr ps hv s hI hnd).1) _ _ _ (npInv_init ps hv) hs'
  exact ⟨s', hs', hI', hd⟩

/-- The facts about the final state of the non-preemptive loop from which
the result-level claims follow. -/
theorem npFinal (sr : List Process → List Process) (hsr : ∀ l, (sr l).Perm l)
    (ps : List Process) (hv : ValidInput ps) :
    ∃ s', npLoop sr (loopFuel ps) (npInit ps) = some s' ∧
      (∀ p ∈ ps, ∃ st, byId p.id s'.gantt = [(p.id, st, st + p.burst)] ∧ p.arrival ≤ st ∧
        dlookup p.id s'.w = some (st - p.arrival) ∧
        dlookup p.id s'.t = some (st + p.burst - p.arrival)) ∧
      s'.gantt.Pairwise (fun a b => a.2.2 ≤ b.2.1) ∧
      (∀ e ∈ s'.gantt, e.2.1 ≤ e.2.2) ∧
      (∀ k, (dlookup k s'.w).isSome → k ∈ ps.map Process.id) ∧
      (∀ k, (dlookup k s'.t).isSome → k ∈ ps.map Process.id) := by
  obtain ⟨s', hs', hI, hd⟩ := np_run_total sr hsr ps hv
  have hmap : ∀ k, k ∈ (sortByArrival ps).map Process.id → k ∈ ps.map Process.id :=
    fun k hk => ((sortByArrival_perm ps).map Process.id).subset hk
  refine ⟨s', hs', ?_, hI.chron, fun e he => (hI.bounds e he).1,
    fun k hk => hmap k (hI.wDom k hk), fun k hk => hmap k (hI.tDom k hk)⟩
  intro p hp
  have hpS : p ∈ sortByArrival ps := (sortByArrival_perm ps).mem_iff.mpr hp
  rcases hI.acct p hpS with ⟨h1, _, _, _⟩ | ⟨_, st, h2, h3, h4, h5⟩
  · exfalso
    rw [hd.1, hd.2] at h1
    simp [idCount] at h1
  · exact ⟨st, h2, h3, h4, h5⟩

/-- Complete characterisation of `fcfsGo` on a suffix with fresh,
positive-burst processes: every process gets exactly one full-burst
interval starting no earlier than its arrival and the current clock, the
timeline stays chronological, and other ids are untouched. -/
theorem fcfsGo_spec (l : List Process) :
    ∀ (time : Int) (g : Timeline) (w t : Dict),
    (l.map Process.id).Nodup →
    (∀ p ∈ l, 1 ≤ p.burst) →
    (∀ p ∈ l, dlookup p.id w = none ∧ dlookup p.id t = none ∧ byId p.id g = []) →
    (∀ e ∈ g, e.2.1 ≤ e.2.2 ∧ e.2.2 ≤ time) →
    g.Pairwise (fun a b => a.2.2 ≤ b.2.1) →
    (∀ p ∈ l, ∃ st, byId p.id (fcfsGo time g w t l).1 = [(p.id, st, st + p.burst)] ∧
        p.arrival ≤ st ∧ time ≤ st ∧
        dlookup p.id (fcfsGo time g w t l).2.1 = some (st - p.arrival) ∧
        dlookup p.id (fcfsGo time g w t l).2.2 = some (st + p.burst - p.arrival)) ∧
    (fcfsGo time g w t l).1.Pairwise (fun a b => a.2.2 ≤ b.2.1) ∧
    (∀ e ∈ (fcfsGo time g w t l).1, e.2.1 ≤ e.2.2) ∧
    (∀ i, i ∉ l.map Process.id → byId i (fcfsGo time g w t l).1 = byId i g) ∧
    (∀ k, k ∉ l.map Process.id → dlookup k (fcfsGo time g w t l).2.1 = dlookup k w) ∧
    (∀ k, k ∉ l.map Process.id → dlookup k (fcfsGo time g w t l).2.2 = dlookup k t) := by
  induction l with
  | nil =>
    intro time g w t _ _ _ h3 h4
    exact ⟨fun p hp => absurd hp (List.not_mem_nil p), h4, fun e he => (h3 e he).1,
      fun i _ => rfl, fun k _ => rfl, fun k _ => rfl⟩
  | cons p rest ih =>
    intro time g w t hn hb hfresh h3 h4
    have hpid : p.id ∉ rest.map Process.id := (List.nodup_cons.mp hn).1
    have hn' : (rest.map Process.id).Nodup := (List.nodup_cons.mp hn).2
    have hb₀ : 1 ≤ p.burst := hb p (List.mem_cons_self _ _)
    have hstart1 : time ≤ (if time < p.arrival then p.arrival else time) := by
      split_ifs with h <;> omega
    have hstart2 : p.arrival ≤ (if time < p.arrival then p.arrival else time) := by
      split_ifs with h <;> omega
    have heq : fcfsGo time g w t (p :: rest) =
        fcfsGo ((if time < p.arrival then p.arrival else time) + p.burst)
          (g ++ [(p.id, if time < p.arrival then p.arrival else time,
            (if time < p.arrival then p.arrival else time) + p.burst)])
          (dinsert p.id ((if time < p.arrival then p.arrival else time) - p.arrival) w)
          (dinsert p.id ((if time < p.arrival then p.arrival else time) + p.burst - p.arrival) t)
          rest := rfl
    set st := if time < p.arrival then p.arrival else time with hstdef
    have hfresh' : ∀ q ∈ rest,
        dlookup q.id (dinsert p.id (st - p.arrival) w) = none ∧
        dlookup q.id (dinsert p.id (st + p.burst - p.arrival) t) = none ∧
        byId q.id (g ++ [(p.id, st, st + p.burst)]) = [] := by
      intro q hq
      have hne : q.id ≠ p.id := fun h => hpid (h ▸ List.mem_map_of_mem Process.id hq)
      obtain ⟨hw, ht, hg⟩ := hfresh q (List.mem_cons_of_mem _ hq)
      refine ⟨?_, ?_, ?_⟩
      · rw [dlookup_dinsert_ne _ _ hne, hw]
      · rw [dlookup_dinsert_ne _ _ hne, ht]
      · rw [byId_append, hg, byId_single_ne (fun h => hne h.symm), List.append_nil]
    have h3' : ∀ e ∈ g ++ [(p.id, st, st + p.burst)], e.2.1 ≤ e.2.2 ∧ e.2.2 ≤ st + p.burst := by
      intro e he
      rcases List.mem_append.mp he with h | h
      · obtain ⟨ha, hb'⟩ := h3 e h
        exact ⟨ha, by omega⟩
      · rw [List.mem_singleton] at h
        subst h
        constructor
        · show st ≤ st + p.burst
          omega
        · show st + p.burst ≤ st + p.burst
          omega
    have h4' : (g ++ [(p.id, st, st + p.burst)]).Pairwise (fun a b => a.2.2 ≤ b.2.1) := by
      rw [List.pairwise_append]
      refine ⟨h4, List.pairwise_singleton _ _, ?_⟩
      intro a ha b hb'
      rw [List.mem_singleton] at hb'
      subst hb'
      show a.2.2 ≤ st
      exact le_trans (h3 a ha).2 hstart1
    obtain ⟨ih1, ih2, ih3, ih4, ih5, ih6⟩ :=
      ih (st + p.burst) (g ++ [(p.id, st, st + p.burst)])
        (dinsert p.id (st - p.arrival) w)
        (dinsert p.id (st + p.burst - p.arrival) t)
        hn' (fun q hq => hb q (List.mem_cons_of_mem _ hq)) hfresh' h3' h4'
    rw [heq]
    refine ⟨?_, ih2, ih3, ?_, ?_, ?_⟩
    · intro q hq
      rcases List.mem_cons.mp hq with h | h
      · subst h
        refine ⟨st, ?_, hstart2, hstart1, ?_, ?_⟩
        · rw [ih4 q.id hpid, byId_append, (hfresh q (List.mem_cons_self _ _)).2.2,
            byId_single_eq, List.nil_append]
        · rw [ih5 q.id hpid, dlookup_dinsert_self]
        · rw [ih6 q.id hpid, dlookup_dinsert_self]
      · obtain ⟨st', hst1, hst2, hst3, hst4, hst5⟩ := ih1 q h
        exact ⟨st', hst1, hst2, by omega, hst4, hst5⟩
    · intro i hi
      have hi1 : i ≠ p.id := fun h => hi (by simp [h])
      have hi2 : i ∉ rest.map Process.id := fun h => hi (by simp [h])
      rw [ih4 i hi2, byId_append, byId_single_ne (fun h => hi1 h.symm), List.append_nil]
    · intro k hk
      have hk1 : k ≠ p.id := fun h => hk (by simp [h])
      have hk2 : k ∉ rest.map Process.id := fun h => hk (by simp [h])
      rw [ih5 k hk2, dlookup_dinsert_ne _ _ hk1]
    · intro k hk
      have hk1 : k ≠ p.id := fun h => hk (by simp [h])
      have hk2 : k ∉ rest.map Process.id := fun h => hk (by simp [h])
      rw [ih6 k hk2, dlookup_dinsert_ne _ _ hk1]

/-- The result-level facts for `fcfs` on a valid input. -/
theorem fcfsFinal (ps : List Process) (hv : ValidInput ps) :
    (∀ p ∈ ps, ∃ st, byId p.id (fcfs ps).1 = [(p.id, st, st + p.burst)] ∧ p.arrival ≤ st ∧
      dlookup p.id (fcfs ps).2.1 = some (st - p.arrival) ∧
      dlookup p.id (fcfs ps).2.2 = some (st + p.burst - p.arrival)) ∧
    (fcfs ps).1.Pairwise (fun a b => a.2.2 ≤ b.2.1) ∧
    (∀ e ∈ (fcfs ps).1, e.2.1 ≤ e.2.2) ∧
    (∀ k, (dlookup k (fcfs ps).2.1).isSome → k ∈ ps.map Process.id) ∧
    (∀ k, (dlookup k (fcfs ps).2.2).isSome → k ∈ ps.map Process.id) := by
  have hnodup : ((sortByArrival ps).map Process.id).Nodup :=
    (((sortByArrival_perm ps).map Process.id).nodup_iff).mpr hv.2.2
  have hb : ∀ p ∈ sortByArrival ps, 1 ≤ p.burst :=
    fun p hp => hv.1 p ((sortByArrival_perm ps).subset hp)
  obtain ⟨h1, h2, h3, h4, h5, h6⟩ := fcfsGo_spec (sortByArrival ps) 0 [] [] [] hnodup hb
    (fun p _ => ⟨rfl, rfl, rfl⟩) (fun e he => absurd he (List.not_mem_nil e))
    List.Pairwise.nil
  refine ⟨?_, h2, h3, ?_, ?_⟩
  · intro p hp
    obtain ⟨st, ha, hb', _, hc, hd⟩ := h1 p ((sortByArrival_perm ps).mem_iff.mpr hp)
    exact ⟨st, ha, hb', hc, hd⟩
  · intro k hk
    by_contra hknot
    have hks : k ∉ (sortByArrival ps).map Process.id :=
      fun h => hknot (((sortByArrival_perm ps).map Process.id).subset h)
    have h := h5 k hks
    show False
    rw [show (fcfs ps).2.1 = (fcfsGo 0 [] [] [] (sortByArrival ps)).2.1 from rfl, h] at hk
    simp [dlookup] at hk
  · intro k hk
    by_contra hknot
    have hks : k ∉ (sortByArrival ps).map Process.id :=
      fun h => hknot (((sortByArrival_perm ps).map Process.id).subset h)
    have h := h6 k hks
    show False
    rw [show (fcfs ps).2.2 = (fcfsGo 0 [] [] [] (sortByArrival ps)).2.2 from rfl, h] at hk
    simp [dlookup] at hk

/-! ### Round robin: remaining-burst bookkeeping -/

theorem remSum_cons (rem : Dict) (p : Process) (l : List Process) :
    remSum rem (p :: l) = (dlookup p.id rem).getD 0 + remSum rem l := rfl

theorem remSum_append (rem : Dict) (l m : List Process) :
    remSum rem (l ++ m) = remSum rem l + remSum rem m := by
  induction l with
  | nil => simp [remSum]
  | cons p l' ih => rw [List.cons_append, remSum_cons, remSum_cons, ih]; ring

theorem remSum_eq_sum (rem : Dict) (l : List Process) :
    remSum rem l = (l.map (fun p => (dlookup p.id rem).getD 0)).sum := by
  induction l with
  | nil => rfl
  | cons p l' ih => rw [remSum_cons, List.map_cons, List.sum_cons, ih]

theorem remSum_perm (rem : Dict) {l m : List Process} (h : l.Perm m) :
    remSum rem l = remSum rem m := by
  rw [remSum_eq_sum, remSum_eq_sum, (h.map _).sum_eq]

theorem remSum_congr {rem₁ rem₂ : Dict} {l : List Process}
    (h : ∀ p ∈ l, dlookup p.id rem₁ = dlookup p.id rem₂) :
    remSum rem₁ l = remSum rem₂ l := by
  induction l with
  | nil => rfl
  | cons p l' ih =>
    rw [remSum_cons, remSum_cons, h p (List.mem_cons_self _ _),
      ih fun p hp => h p (List.mem_cons_of_mem _ hp)]

theorem remSum_dinsert_ne {i : String} (v : Int) (rem : Dict) {l : List Process}
    (h : i ∉ l.map Process.id) : remSum (dinsert i v rem) l = remSum rem l := by
  refine remSum_congr ?_
  intro p hp
  exact dlookup_dinsert_ne _ _ (fun he => h (he ▸ List.mem_map_of_mem Process.id hp))

/-- Folding the `remaining` comprehension leaves keys outside the list
untouched. -/
theorem initRem_fold_not_mem {k : String} (l : List Process) (d : Dict)
    (h : k ∉ l.map Process.id) :
    dlookup k (l.foldl (fun d p => dinsert p.id p.burst d) d) = dlookup k d := by
  induction l generalizing d with
  | nil => rfl
  | cons p l' ih =>
    have h1 : k ≠ p.id := fun he => h (by simp [he])
    have h2 : k ∉ l'.map Process.id := fun hm => h (by simp [hm])
    rw [List.foldl_cons, ih _ h2, dlookup_dinsert_ne _ _ h1]

/-- For a list with distinct ids, the `remaining` comprehension maps each
id to its burst. -/
theorem initRem_lookup {l : List Process} (hn : (l.map Process.id).Nodup) :
    ∀ p ∈ l, dlookup p.id (initRem l) = some p.burst := by
  have hgen : ∀ (m : List Process) (d : Dict), (m.map Process.id).Nodup →
      ∀ p ∈ m, dlookup p.id (m.foldl (fun d p => dinsert p.id p.burst d) d) = some p.burst := by
    intro m
    induction m with
    | nil => intro d _ p hp; cases hp
    | cons p₁ m' ih =>
      intro d hn' p hp
      rcases List.mem_cons.mp hp with h | h
      · subst h
        rw [List.foldl_cons,
          initRem_fold_not_mem m' (dinsert p.id p.burst d) (List.nodup_cons.mp hn').1,
          dlookup_dinsert_self]
      · exact ih _ (List.nodup_cons.mp hn').2 p h
  exact hgen l [] hn

/-- `rrStep` with its let-bindings laid out, for rewriting. -/
theorem rrStep_eq (quantum : Int) (s : RRState) : rrStep quantum s =
    (match s.queue ++ s.rest.takeWhile (fun p => p.arrival ≤ s.time) with
    | [] =>
      { rest := s.rest.dropWhile (fun p => p.arrival ≤ s.time), queue := [],
        time := s.time + 1, rem := s.rem, gantt := s.gantt, fin := s.fin }
    | p :: qs =>
      if 0 < (dlookup p.id s.rem).getD 0 - min quantum ((dlookup p.id s.rem).getD 0) then
        { rest := (s.rest.dropWhile (fun p => p.arrival ≤ s.time)).dropWhile
            (fun p' => p'.arrival ≤ s.time + min quantum ((dlookup p.id s.rem).getD 0)),
          queue := qs ++ (s.rest.dropWhile (fun p => p.arrival ≤ s.time)).takeWhile
            (fun p' => p'.arrival ≤ s.time + min quantum ((dlookup p.id s.rem).getD 0)) ++ [p],
          time := s.time + min quantum ((dlookup p.id s.rem).getD 0),
          rem := dinsert p.id
            ((dlookup p.id s.rem).getD 0 - min quantum ((dlookup p.id s.rem).getD 0)) s.rem,
          gantt := s.gantt ++
            [(p.id, s.time, s.time + min quantum ((dlookup p.id s.rem).getD 0))],
          fin := s.fin }
      else
        { rest := s.rest.dropWhile (fun p => p.arrival ≤ s.time), queue := qs,
          time := s.time + min quantum ((dlookup p.id s.rem).getD 0),
          rem := dinsert p.id
            ((dlookup p.id s.rem).getD 0 - min quantum ((dlookup p.id s.rem).getD 0)) s.rem,
          gantt := s.gantt ++
            [(p.id, s.time, s.time + min quantum ((dlookup p.id s.rem).getD 0))],
          fin := dinsert p.id (s.time + min quantum ((dlookup p.id s.rem).getD 0)) s.fin }) := by
  rfl

theorem sumDur_single_eq (i : String) (st f : Int) : sumDur i [(i, st, f)] = f - st := by
  simp [sumDur]

theorem sumDur_single_ne {i j : String} (h : ¬ j = i) (st f : Int) :
    sumDur i [(j, st, f)] = 0 := by
  simp [sumDur, h]

theorem sumDur_of_byId_nil {i : String} {g : Timeline} (h : byId i g = []) :
    sumDur i g = 0 := by
  rw [sumDur_eq_byId, h]
  rfl

/-- A process of the run is a member of any of the loop's lists in which
its id is counted, by uniqueness of ids. -/
theorem mem_of_idCount_pos {ps : List Process} {l : List Process} {p : Process}
    (hnodup : ((sortByArrival ps).map Process.id).Nodup)
    (hp : p ∈ sortByArrival ps) (hsub : ∀ x ∈ l, x ∈ sortByArrival ps)
    (h : 1 ≤ idCount p.id l) : p ∈ l := by
  induction l with
  | nil => simp [idCount] at h
  | cons x l' ih =>
    rw [idCount_cons] at h
    by_cases hx : x.id = p.id
    · have : x = p := List.inj_on_of_nodup_map hnodup (hsub x (List.mem_cons_self _ _)) hp hx
      subst this
      exact List.mem_cons_self _ _
    · simp [hx] at h
      exact List.mem_cons_of_mem _ (ih (fun y hy => hsub y (List.mem_cons_of_mem _ hy)) h)

/-- What is known about the process popped from the front of the round
robin queue. -/
theorem rrPop_facts (ps : List Process) (hv : ValidInput ps) (s : RRState)
    (hI : RRInv ps s) (p₀ : Process) (qs : List Process)
    (hqa : s.queue ++ s.rest.takeWhile (fun p => p.arrival ≤ s.time) = p₀ :: qs) :
    p₀ ∈ sortByArrival ps ∧ ∃ r₀, dlookup p₀.id s.rem = some r₀ ∧ 1 ≤ r₀ ∧
      r₀ ≤ p₀.burst ∧ sumDur p₀.id s.gantt = p₀.burst - r₀ ∧
      p₀.arrival + (p₀.burst - r₀) ≤ s.time ∧ p₀.arrival ≤ s.time ∧
      dlookup p₀.id s.fin = none := by
  have hp₀mem : p₀ ∈ s.queue ++ s.rest.takeWhile (fun p => p.arrival ≤ s.time) := by
    rw [hqa]
    exact List.mem_cons_self _ _
  rcases List.mem_append.mp hp₀mem with hmem | hmem
  · -- popped from the queue: it is mid-execution
    have hp₀S : p₀ ∈ sortByArrival ps := hI.queueMem p₀ hmem
    refine ⟨hp₀S, ?_⟩
    rcases hI.acct p₀ hp₀S with ⟨_, h2, _, _, _⟩ | ⟨_, _, hfin, harr, r, hr1, hr2, hr3, hr4, hr5⟩ |
      ⟨_, h2, _, _, _⟩
    · exact absurd (idCount_pos_of_mem hmem) (by omega)
    · exact ⟨r, hr1, hr2, hr3, hr4, hr5, harr, hfin⟩
    · exact absurd (idCount_pos_of_mem hmem) (by omega)
  · -- popped among the newly admitted: untouched so far
    have hp₀rest : p₀ ∈ s.rest := (List.takeWhile_sublist _).mem hmem
    have hp₀S : p₀ ∈ sortByArrival ps := hI.restMem p₀ hp₀rest
    have hp₀arr : p₀.arrival ≤ s.time := by simpa using List.mem_takeWhile_imp hmem
    have hb : 1 ≤ p₀.burst := hv.1 p₀ ((sortByArrival_perm ps).subset hp₀S)
    refine ⟨hp₀S, ?_⟩
    rcases hI.acct p₀ hp₀S with ⟨_, _, hrem, hfin, hg⟩ | ⟨h1, _, _, _, _⟩ | ⟨h1, _, _, _, _⟩
    · exact ⟨p₀.burst, hrem, hb, le_refl _, by rw [sumDur_of_byId_nil hg]; ring,
        by omega, hp₀arr, hfin⟩
    · exact absurd (idCount_pos_of_mem hp₀rest) (by omega)
    · exact absurd (idCount_pos_of_mem hp₀rest) (by omega)

/-- Preservation of the round robin invariant by an idle step. -/
theorem rrInv_step_idle (q : Int) (ps : List Process) (s : RRState)
    (hI : RRInv ps s) (hnd : ¬ rrDone s)
    (hqa : s.queue ++ s.rest.takeWhile (fun p => p.arrival ≤ s.time) = []) :
    RRInv ps (rrStep q s) ∧ s.time + 1 ≤ (rrStep q s).time := by
  have hq0 : s.queue = [] := (List.append_eq_nil.mp hqa).1
  have had : s.rest.takeWhile (fun p => p.arrival ≤ s.time) = [] :=
    (List.append_eq_nil.mp hqa).2
  have hdrop : s.rest.dropWhile (fun p => p.arrival ≤ s.time) = s.rest := by
    have h := List.takeWhile_append_dropWhile (fun p => decide (p.arrival ≤ s.time)) s.rest
    rw [had] at h
    simpa using h
  have hstep : rrStep q s =
      { rest := s.rest, queue := [], time := s.time + 1,
        rem := s.rem, gantt := s.gantt, fin := s.fin } := by
    rw [rrStep_eq, hqa]
    show
      { rest := s.rest.dropWhile (fun p => p.arrival ≤ s.time), queue := [],
        time := s.time + 1, rem := s.rem, gantt := s.gantt, fin := s.fin } =
      ({ rest := s.rest, queue := [], time := s.time + 1,
         rem := s.rem, gantt := s.gantt, fin := s.fin } : RRState)
    rw [hdrop]
  have hrest_ne : s.rest ≠ [] := fun h0 => hnd ⟨h0, hq0⟩
  obtain ⟨qh, l, hql⟩ := List.exists_cons_of_ne_nil hrest_ne
  have hqt : s.time < qh.arrival := by
    by_contra hc
    push_neg at hc
    have hne : s.rest.takeWhile (fun p => p.arrival ≤ s.time) ≠ [] := by
      rw [hql]
      simp [List.takeWhile_cons, hc]
    exact hne had
  have hqmax : qh.arrival ≤ maxArrival ps :=
    arrival_le_maxArrival ((sortByArrival_perm ps).subset (hI.restMem qh (by rw [hql]; simp)))
  rw [hstep]
  refine ⟨⟨hI.restMem, ?_, hI.restSorted, ?_, ?_, hI.chron, ?_, ?_, ?_⟩, ?_⟩
  · intro p hp; cases hp
  · have h := hI.pendNodup
    rw [hq0] at h
    exact h
  · intro p hp
    rcases hI.acct p hp with ⟨h1, h2, h3, h4, h5⟩ |
      ⟨h1, h2, h3, h4, r, hr1, hr2, hr3, hr4, hr5⟩ |
      ⟨h1, h2, h3, h4, f, hf1, hf2, hf3⟩
    · exact Or.inl ⟨h1, rfl, h3, h4, h5⟩
    · exfalso
      rw [hq0] at h2
      simp [idCount] at h2
    · refine Or.inr (Or.inr ⟨h1, rfl, h3, h4, f, hf1, hf2, ?_⟩)
      show f ≤ s.time + 1
      omega
  · intro e he
    refine ⟨(hI.bounds e he).1, ?_⟩
    show e.2.2 ≤ s.time + 1
    have := (hI.bounds e he).2
    omega
  · show s.time + 1 + remSum s.rem ([] ++ s.rest) ≤ maxArrival ps + sumBurst ps
    have h1 := hI.pendSum
    rw [hq0] at h1
    omega
  · show remSum s.rem ([] ++ s.rest) ≤ sumBurst ps
    have h1 := hI.pendSum
    rw [hq0] at h1
    exact h1
  · show s.time + 1 ≤ s.time + 1
    omega

/-- `rrStep` when the queue after admission is non-empty. -/
theorem rrStep_cons (quantum : Int) (s : RRState) (p₀ : Process) (qs : List Process)
    (hqa : s.queue ++ s.rest.takeWhile (fun p => p.arrival ≤ s.time) = p₀ :: qs) :
    rrStep quantum s =
    (if 0 < (dlookup p₀.id s.rem).getD 0 - min quantum ((dlookup p₀.id s.rem).getD 0) then
      { rest := (s.rest.dropWhile (fun p => p.arrival ≤ s.time)).dropWhile
          (fun p' => p'.arrival ≤ s.time + min quantum ((dlookup p₀.id s.rem).getD 0)),
        queue := qs ++ (s.rest.dropWhile (fun p => p.arrival ≤ s.time)).takeWhile
          (fun p' => p'.arrival ≤ s.time + min quantum ((dlookup p₀.id s.rem).getD 0)) ++ [p₀],
        time := s.time + min quantum ((dlookup p₀.id s.rem).getD 0),
        rem := dinsert p₀.id
          ((dlookup p₀.id s.rem).getD 0 - min quantum ((dlookup p₀.id s.rem).getD 0)) s.rem,
        gantt := s.gantt ++
          [(p₀.id, s.time, s.time + min quantum ((dlookup p₀.id s.rem).getD 0))],
        fin := s.fin }
    else
      { rest := s.rest.dropWhile (fun p => p.arrival ≤ s.time), queue := qs,
        time := s.time + min quantum ((dlookup p₀.id s.rem).getD 0),
        rem := dinsert p₀.id
          ((dlookup p₀.id s.rem).getD 0 - min quantum ((dlookup p₀.id s.rem).getD 0)) s.rem,
        gantt := s.gantt ++
          [(p₀.id, s.time, s.time + min quantum ((dlookup p₀.id s.rem).getD 0))],
        fin := dinsert p₀.id (s.time + min quantum ((dlookup p₀.id s.rem).getD 0)) s.fin }) := by
  rw [rrStep_eq, hqa]

theorem idCount_takeWhile_le (i : String) (pred : Process → Bool) (l : List Process) :
    idCount i (l.takeWhile pred) ≤ idCount i l := by
  conv_rhs => rw [← List.takeWhile_append_dropWhile pred l]
  rw [idCount_append]
  omega

theorem idCount_dropWhile_le (i : String) (pred : Process → Bool) (l : List Process) :
    idCount i (l.dropWhile pred) ≤ idCount i l := by
  conv_rhs => rw [← List.takeWhile_append_dropWhile pred l]
  rw [idCount_append]
  omega

/-- Preservation of the round robin invariant when the popped process
finishes (its remaining burst fits in the quantum). -/
theorem rrInv_step_finish (q : Int) (hq : 1 ≤ q) (ps : List Process)
    (hv : ValidInput ps) (s : RRState) (hI : RRInv ps s)
    (p₀ : Process) (qs : List Process)
    (hqa : s.queue ++ s.rest.takeWhile (fun p => p.arrival ≤ s.time) = p₀ :: qs)
    (hnb : ¬ 0 < (dlookup p₀.id s.rem).getD 0 - min q ((dlookup p₀.id s.rem).getD 0)) :
    RRInv ps (rrStep q s) ∧ s.time + 1 ≤ (rrStep q s).time := by
  obtain ⟨hp₀S, r₀, hr₀, hr₁, hr₂, hr₃, hr₄, hr₅, hr₆⟩ := rrPop_facts ps hv s hI p₀ qs hqa
  have hnodup : ((sortByArrival ps).map Process.id).Nodup :=
    (((sortByArrival_perm ps).map Process.id).nodup_iff).mpr hv.2.2
  have hget : (dlookup p₀.id s.rem).getD 0 = r₀ := by rw [hr₀]; rfl
  have hexec2 : min q r₀ ≤ r₀ := min_le_right _ _
  have hexec : min q r₀ = r₀ := by
    rw [hget] at hnb
    have h1 : 1 ≤ min q r₀ := le_min hq hr₁
    omega
  have hnb' : ¬ 0 < r₀ - min q r₀ := by rw [hget] at hnb; exact hnb
  have hstep : rrStep q s =
      { rest := s.rest.dropWhile (fun p => p.arrival ≤ s.time), queue := qs,
        time := s.time + r₀, rem := dinsert p₀.id 0 s.rem,
        gantt := s.gantt ++ [(p₀.id, s.time, s.time + r₀)],
        fin := dinsert p₀.id (s.time + r₀) s.fin } := by
    rw [rrStep_cons q s p₀ qs hqa, hget, if_neg hnb', hexec, sub_self]
  have htd : s.rest.takeWhile (fun p => p.arrival ≤ s.time) ++
      s.rest.dropWhile (fun p => p.arrival ≤ s.time) = s.rest :=
    List.takeWhile_append_dropWhile _ _
  have hpend_eq : s.queue ++ s.rest =
      p₀ :: (qs ++ s.rest.dropWhile (fun p => p.arrival ≤ s.time)) := by
    conv_lhs => rw [← htd, ← List.append_assoc, hqa]
    rfl
  have hpendMem : ∀ p ∈ qs ++ s.rest.dropWhile (fun p => p.arrival ≤ s.time),
      p ∈ sortByArrival ps := by
    intro p hp
    have hp' : p ∈ s.queue ++ s.rest := by
      rw [hpend_eq]
      exact List.mem_cons_of_mem _ hp
    rcases List.mem_append.mp hp' with h | h
    · exact hI.queueMem p h
    · exact hI.restMem p h
  have hnodup' : ((qs ++ s.rest.dropWhile (fun p => p.arrival ≤ s.time)).map
      Process.id).Nodup := by
    have h := hI.pendNodup
    rw [hpend_eq, List.map_cons] at h
    exact (List.nodup_cons.mp h).2
  have hp₀nin : p₀.id ∉ (qs ++ s.rest.dropWhile (fun p => p.arrival ≤ s.time)).map
      Process.id := by
    have h := hI.pendNodup
    rw [hpend_eq, List.map_cons] at h
    exact (List.nodup_cons.mp h).1
  have hcnt : ∀ i, idCount i (s.queue ++ s.rest) = (if p₀.id = i then 1 else 0) +
      idCount i (qs ++ s.rest.dropWhile (fun p => p.arrival ≤ s.time)) := by
    intro i
    rw [hpend_eq, idCount_cons]
  rw [hstep]
  refine ⟨⟨?_, ?_, ?_, ?_, ?_, ?_, ?_, ?_, ?_⟩, ?_⟩
  · intro p hp
    exact hI.restMem p ((List.dropWhile_sublist _).mem hp)
  · intro p hp
    exact hpendMem p (List.mem_append_left _ hp)
  · exact hI.restSorted.sublist (List.dropWhile_sublist _)
  · exact hnodup'
  · intro p hp
    by_cases hid : p.id = p₀.id
    · have hpp : p = p₀ := List.inj_on_of_nodup_map hnodup hp hp₀S hid
      subst hpp
      have hz := idCount_eq_zero_of_not_mem hp₀nin
      rw [idCount_append] at hz
      refine Or.inr (Or.inr ⟨?_, ?_, ?_, ?_, s.time + r₀, ?_, ?_, ?_⟩)
      · show idCount p.id (s.rest.dropWhile (fun p => p.arrival ≤ s.time)) = 0
        omega
      · show idCount p.id qs = 0
        omega
      · exact dlookup_dinsert_self _ _ _
      · show sumDur p.id (s.gantt ++ [(p.id, s.time, s.time + r₀)]) = p.burst
        rw [sumDur_append, hr₃, sumDur_single_eq]
        ring
      · exact dlookup_dinsert_self _ _ _
      · show p.arrival + p.burst ≤ s.time + r₀
        omega
      · show s.time + r₀ ≤ s.time + r₀
        omega
    · have hidne : ¬ p₀.id = p.id := fun h => hid h.symm
      have hc := hcnt p.id
      rw [if_neg hidne, idCount_append, idCount_append] at hc
      rcases hI.acct p hp with ⟨h1, h2, h3, h4, h5⟩ |
        ⟨h1, h2, h3, h4, r, hrr1, hrr2, hrr3, hrr4, hrr5⟩ |
        ⟨h1, h2, h3, h4, f, hf1, hf2, hf3⟩
      · -- was unadmitted: admitted now (into the queue) or still waiting
        have hTD : idCount p.id (s.rest.takeWhile (fun p => p.arrival ≤ s.time)) +
            idCount p.id (s.rest.dropWhile (fun p => p.arrival ≤ s.time)) =
            idCount p.id s.rest := by
          rw [← idCount_append, htd]
        by_cases hT : idCount p.id (s.rest.takeWhile (fun p => p.arrival ≤ s.time)) = 0
        · -- still unadmitted
          refine Or.inl ⟨?_, ?_, ?_, ?_, ?_⟩
          · show idCount p.id (s.rest.dropWhile (fun p => p.arrival ≤ s.time)) = 1
            omega
          · show idCount p.id qs = 0
            omega
          · show dlookup p.id (dinsert p₀.id 0 s.rem) = some p.burst
            rw [dlookup_dinsert_ne _ _ hid, h3]
          · show dlookup p.id (dinsert p₀.id (s.time + r₀) s.fin) = none
            rw [dlookup_dinsert_ne _ _ hid, h4]
          · show byId p.id (s.gantt ++ [(p₀.id, s.time, s.time + r₀)]) = []
            rw [byId_append, h5, byId_single_ne hidne, List.append_nil]
        · -- freshly admitted into the queue
          have hTpos : 1 ≤ idCount p.id
              (s.rest.takeWhile (fun p => p.arrival ≤ s.time)) := by omega
          have hTmem : p ∈ s.rest.takeWhile (fun p => p.arrival ≤ s.time) :=
            mem_of_idCount_pos hnodup hp
              (fun x hx => hI.restMem x ((List.takeWhile_sublist _).mem hx)) hTpos
          have hparr : p.arrival ≤ s.time := by simpa using List.mem_takeWhile_imp hTmem
          have hpb : 1 ≤ p.burst := hv.1 p ((sortByArrival_perm ps).subset hp)
          refine Or.inr (Or.inl ⟨?_, ?_, ?_, ?_, p.burst, ?_, hpb, le_refl _, ?_, ?_⟩)
          · show idCount p.id (s.rest.dropWhile (fun p => p.arrival ≤ s.time)) = 0
            omega
          · show idCount p.id qs = 1
            omega
          · show dlookup p.id (dinsert p₀.id (s.time + r₀) s.fin) = none
            rw [dlookup_dinsert_ne _ _ hid, h4]
          · show p.arrival ≤ s.time + r₀
            omega
          · show dlookup p.id (dinsert p₀.id 0 s.rem) = some p.burst
            rw [dlookup_dinsert_ne _ _ hid, h3]
          · show sumDur p.id (s.gantt ++ [(p₀.id, s.time, s.time + r₀)]) =
              p.burst - p.burst
            rw [sumDur_append, sumDur_of_byId_nil h5, sumDur_single_ne hidne]
            ring
          · show p.arrival + (p.burst - p.burst) ≤ s.time + r₀
            omega
      · -- was queued: stays queued
        refine Or.inr (Or.inl ⟨?_, ?_, ?_, ?_, r, ?_, hrr2, hrr3, ?_, ?_⟩)
        · show idCount p.id (s.rest.dropWhile (fun p => p.arrival ≤ s.time)) = 0
          have hD := idCount_dropWhile_le p.id (fun p => p.arrival ≤ s.time) s.rest
          omega
        · show idCount p.id qs = 1
          have hT := idCount_takeWhile_le p.id (fun p => p.arrival ≤ s.time) s.rest
          have hD := idCount_dropWhile_le p.id (fun p => p.arrival ≤ s.time) s.rest
          omega
        · show dlookup p.id (dinsert p₀.id (s.time + r₀) s.fin) = none
          rw [dlookup_dinsert_ne _ _ hid, h3]
        · show p.arrival ≤ s.time + r₀
          omega
        · show dlookup p.id (dinsert p₀.id 0 s.rem) = some r
          rw [dlookup_dinsert_ne _ _ hid, hrr1]
        · show sumDur p.id (s.gantt ++ [(p₀.id, s.time, s.time + r₀)]) = p.burst - r
          rw [sumDur_append, hrr4, sumDur_single_ne hidne]
          ring
        · show p.arrival + (p.burst - r) ≤ s.time + r₀
          omega
      · -- was finished: stays finished
        refine Or.inr (Or.inr ⟨?_, ?_, ?_, ?_, f, ?_, hf2, ?_⟩)
        · show idCount p.id (s.rest.dropWhile (fun p => p.arrival ≤ s.time)) = 0
          have hD := idCount_dropWhile_le p.id (fun p => p.arrival ≤ s.time) s.rest
          omega
        · show idCount p.id qs = 0
          omega
        · show dlookup p.id (dinsert p₀.id 0 s.rem) = some 0
          rw [dlookup_dinsert_ne _ _ hid, h3]
        · show sumDur p.id (s.gantt ++ [(p₀.id, s.time, s.time + r₀)]) = p.burst
          rw [sumDur_append, h4, sumDur_single_ne hidne]
          ring
        · show dlookup p.id (dinsert p₀.id (s.time + r₀) s.fin) = some f
          rw [dlookup_dinsert_ne _ _ hid, hf1]
        · show f ≤ s.time + r₀
          omega
  · show (s.gantt ++ [(p₀.id, s.time, s.time + r₀)]).Pairwise (fun a b => a.2.2 ≤ b.2.1)
    rw [List.pairwise_append]
    refine ⟨hI.chron, List.pairwise_singleton _ _, ?_⟩
    intro a ha b hb
    rw [List.mem_singleton] at hb
    subst hb
    show a.2.2 ≤ s.time
    exact (hI.bounds a ha).2
  · intro e he
    have he' : e ∈ s.gantt ++ [(p₀.id, s.time, s.time + r₀)] := he
    rcases List.mem_append.mp he' with h | h
    · obtain ⟨hb1, hb2⟩ := hI.bounds e h
      refine ⟨hb1, ?_⟩
      show e.2.2 ≤ s.time + r₀
      omega
    · rw [List.mem_singleton] at h
      subst h
      exact ⟨by show s.time ≤ s.time + r₀; omega, by show s.time + r₀ ≤ s.time + r₀; omega⟩
  · show s.time + r₀ + remSum (dinsert p₀.id 0 s.rem)
      (qs ++ s.rest.dropWhile (fun p => p.arrival ≤ s.time)) ≤
      maxArrival ps + sumBurst ps
    rw [remSum_dinsert_ne _ _ hp₀nin]
    have hts := hI.timeSum
    rw [hpend_eq, remSum_cons, hget] at hts
    omega
  · show remSum (dinsert p₀.id 0 s.rem)
      (qs ++ s.rest.dropWhile (fun p => p.arrival ≤ s.time)) ≤ sumBurst ps
    rw [remSum_dinsert_ne _ _ hp₀nin]
    have hts := hI.pendSum
    rw [hpend_eq, remSum_cons, hget] at hts
    omega
  · show s.time + 1 ≤ s.time + r₀
    omega

/-- Preservation of the round robin invariant when the popped process is
preempted and requeued behind the newly arrived processes. -/
theorem rrInv_step_requeue (q : Int) (hq : 1 ≤ q) (ps : List Process)
    (hv : ValidInput ps) (s : RRState) (hI : RRInv ps s)
    (p₀ : Process) (qs : List Process)
    (hqa : s.queue ++ s.rest.takeWhile (fun p => p.arrival ≤ s.time) = p₀ :: qs)
    (hb : 0 < (dlookup p₀.id s.rem).getD 0 - min q ((dlookup p₀.id s.rem).getD 0)) :
    RRInv ps (rrStep q s) ∧ s.time + 1 ≤ (rrStep q s).time := by
  obtain ⟨hp₀S, r₀, hr₀, hr₁, hr₂, hr₃, hr₄, hr₅, hr₆⟩ := rrPop_facts ps hv s hI p₀ qs hqa
  have hnodup : ((sortByArrival ps).map Process.id).Nodup :=
    (((sortByArrival_perm ps).map Process.id).nodup_iff).mpr hv.2.2
  have hget : (dlookup p₀.id s.rem).getD 0 = r₀ := by rw [hr₀]; rfl
  have hb' : 0 < r₀ - min q r₀ := by rw [hget] at hb; exact hb
  have hexec1 : 1 ≤ min q r₀ := le_min hq hr₁
  have hexec2 : min q r₀ ≤ r₀ := min_le_right _ _
  have hstep : rrStep q s =
      { rest := (s.rest.dropWhile (fun p => p.arrival ≤ s.time)).dropWhile
          (fun p' => p'.arrival ≤ s.time + min q r₀),
        queue := qs ++ (s.rest.dropWhile (fun p => p.arrival ≤ s.time)).takeWhile
          (fun p' => p'.arrival ≤ s.time + min q r₀) ++ [p₀],
        time := s.time + min q r₀,
        rem := dinsert p₀.id (r₀ - min q r₀) s.rem,
        gantt := s.gantt ++ [(p₀.id, s.time, s.time + min q r₀)],
        fin := s.fin } := by
    rw [rrStep_cons q s p₀ qs hqa]
    simp only [hget]
    rw [if_pos hb']
  have htd : s.rest.takeWhile (fun p => p.arrival ≤ s.time) ++
      s.rest.dropWhile (fun p => p.arrival ≤ s.time) = s.rest :=
    List.takeWhile_append_dropWhile _ _
  have htd2 : (s.rest.dropWhile (fun p => p.arrival ≤ s.time)).takeWhile
        (fun p' => p'.arrival ≤ s.time + min q r₀) ++
      (s.rest.dropWhile (fun p => p.arrival ≤ s.time)).dropWhile
        (fun p' => p'.arrival ≤ s.time + min q r₀) =
      s.rest.dropWhile (fun p => p.arrival ≤ s.time) :=
    List.takeWhile_append_dropWhile _ _
  have hpend_eq : s.queue ++ s.rest =
      p₀ :: (qs ++ s.rest.dropWhile (fun p => p.arrival ≤ s.time)) := by
    conv_lhs => rw [← htd, ← List.append_assoc, hqa]
    rfl
  have hpendMem : ∀ p ∈ qs ++ s.rest.dropWhile (fun p => p.arrival ≤ s.time),
      p ∈ sortByArrival ps := by
    intro p hp
    have hp' : p ∈ s.queue ++ s.rest := by
      rw [hpend_eq]
      exact List.mem_cons_of_mem _ hp
    rcases List.mem_append.mp hp' with h | h
    · exact hI.queueMem p h
    · exact hI.restMem p h
  have hp₀nin : p₀.id ∉ (qs ++ s.rest.dropWhile (fun p => p.arrival ≤ s.time)).map
      Process.id := by
    have h := hI.pendNodup
    rw [hpend_eq, List.map_cons] at h
    exact (List.nodup_cons.mp h).1
  have hperm2 : ((qs ++ (s.rest.dropWhile (fun p => p.arrival ≤ s.time)).takeWhile
        (fun p' => p'.arrival ≤ s.time + min q r₀) ++ [p₀]) ++
      (s.rest.dropWhile (fun p => p.arrival ≤ s.time)).dropWhile
        (fun p' => p'.arrival ≤ s.time + min q r₀)).Perm
      (p₀ :: (qs ++ s.rest.dropWhile (fun p => p.arrival ≤ s.time))) := by
    have h1 : (qs ++ (s.rest.dropWhile (fun p => p.arrival ≤ s.time)).takeWhile
          (fun p' => p'.arrival ≤ s.time + min q r₀) ++ [p₀]) ++
        (s.rest.dropWhile (fun p => p.arrival ≤ s.time)).dropWhile
          (fun p' => p'.arrival ≤ s.time + min q r₀) =
        (qs ++ (s.rest.dropWhile (fun p => p.arrival ≤ s.time)).takeWhile
          (fun p' => p'.arrival ≤ s.time + min q r₀)) ++
        (p₀ :: (s.rest.dropWhile (fun p => p.arrival ≤ s.time)).dropWhile
          (fun p' => p'.arrival ≤ s.time + min q r₀)) := by
      rw [List.append_assoc]
      rfl
    rw [h1]
    refine List.perm_middle.trans ?_
    rw [List.append_assoc, htd2]
  have hpermPend : ((qs ++ (s.rest.dropWhile (fun p => p.arrival ≤ s.time)).takeWhile
        (fun p' => p'.arrival ≤ s.time + min q r₀) ++ [p₀]) ++
      (s.rest.dropWhile (fun p => p.arrival ≤ s.time)).dropWhile
        (fun p' => p'.arrival ≤ s.time + min q r₀)).Perm (s.queue ++ s.rest) := by
    rw [hpend_eq]
    exact hperm2
  rw [hstep]
  refine ⟨⟨?_, ?_, ?_, ?_, ?_, ?_, ?_, ?_, ?_⟩, ?_⟩
  · intro p hp
    exact hI.restMem p ((List.dropWhile_sublist _).mem ((List.dropWhile_sublist _).mem hp))
  · intro p hp
    rcases List.mem_append.mp hp with h | h
    · rcases List.mem_append.mp h with h' | h'
      · exact hpendMem p (List.mem_append_left _ h')
      · exact hI.restMem p
          ((List.dropWhile_sublist _).mem ((List.takeWhile_sublist _).mem h'))
    · rw [List.mem_singleton] at h
      subst h
      exact hp₀S
  · exact (hI.restSorted.sublist (List.dropWhile_sublist _)).sublist
      (List.dropWhile_sublist _)
  · have h := hI.pendNodup
    exact ((hpermPend.map Process.id).nodup_iff).mpr h
  · intro p hp
    have hcd : idCount p.id (s.rest.dropWhile (fun p => p.arrival ≤ s.time)) =
        idCount p.id ((s.rest.dropWhile (fun p => p.arrival ≤ s.time)).takeWhile
          (fun p' => p'.arrival ≤ s.time + min q r₀)) +
        idCount p.id ((s.rest.dropWhile (fun p => p.arrival ≤ s.time)).dropWhile
          (fun p' => p'.arrival ≤ s.time + min q r₀)) := by
      conv_lhs => rw [← htd2]
      rw [idCount_append]
    have hcnt : idCount p.id (s.queue ++ s.rest) = (if p₀.id = p.id then 1 else 0) +
        (idCount p.id qs +
          idCount p.id (s.rest.dropWhile (fun p => p.arrival ≤ s.time))) := by
      rw [hpend_eq, idCount_cons, idCount_append]
    rw [idCount_append] at hcnt
    by_cases hid : p.id = p₀.id
    · have hpp : p = p₀ := List.inj_on_of_nodup_map hnodup hp hp₀S hid
      subst hpp
      have hz := idCount_eq_zero_of_not_mem hp₀nin
      rw [idCount_append] at hz
      refine Or.inr (Or.inl ⟨?_, ?_, ?_, ?_, r₀ - min q r₀, ?_, ?_, ?_, ?_, ?_⟩)
      · show idCount p.id ((s.rest.dropWhile (fun p => p.arrival ≤ s.time)).dropWhile
          (fun p' => p'.arrival ≤ s.time + min q r₀)) = 0
        omega
      · show idCount p.id (qs ++ (s.rest.dropWhile (fun p => p.arrival ≤ s.time)).takeWhile
          (fun p' => p'.arrival ≤ s.time + min q r₀) ++ [p]) = 1
        have h1 : idCount p.id [p] = 1 := by
          rw [idCount_cons]
          simp [idCount]
        rw [idCount_append, idCount_append, h1]
        omega
      · exact hr₆
      · show p.arrival ≤ s.time + min q r₀
        omega
      · exact dlookup_dinsert_self _ _ _
      · show 1 ≤ r₀ - min q r₀
        omega
      · show r₀ - min q r₀ ≤ p.burst
        omega
      · show sumDur p.id (s.gantt ++ [(p.id, s.time, s.time + min q r₀)]) =
          p.burst - (r₀ - min q r₀)
        rw [sumDur_append, hr₃, sumDur_single_eq]
        ring
      · show p.arrival + (p.burst - (r₀ - min q r₀)) ≤ s.time + min q r₀
        omega
    · have hidne : ¬ p₀.id = p.id := fun h => hid h.symm
      rw [if_neg hidne] at hcnt
      have hone : idCount p.id [p₀] = 0 := by
        rw [idCount_cons, if_neg hidne]
        rfl
      rcases hI.acct p hp with ⟨h1, h2, h3, h4, h5⟩ |
        ⟨h1, h2, h3, h4, r, hrr1, hrr2, hrr3, hrr4, hrr5⟩ |
        ⟨h1, h2, h3, h4, f, hf1, hf2, hf3⟩
      · -- was unadmitted: maybe admitted in one of the two admission passes
        have hTD : idCount p.id (s.rest.takeWhile (fun p => p.arrival ≤ s.time)) +
            idCount p.id (s.rest.dropWhile (fun p => p.arrival ≤ s.time)) =
            idCount p.id s.rest := by
          rw [← idCount_append, htd]
        by_cases hD2 : idCount p.id ((s.rest.dropWhile (fun p => p.arrival ≤ s.time)).dropWhile
            (fun p' => p'.arrival ≤ s.time + min q r₀)) = 1
        · -- still unadmitted
          refine Or.inl ⟨hD2, ?_, ?_, h4, ?_⟩
          · show idCount p.id (qs ++ (s.rest.dropWhile
              (fun p => p.arrival ≤ s.time)).takeWhile
              (fun p' => p'.arrival ≤ s.time + min q r₀) ++ [p₀]) = 0
            rw [idCount_append, idCount_append, hone]
            omega
          · show dlookup p.id (dinsert p₀.id (r₀ - min q r₀) s.rem) = some p.burst
            rw [dlookup_dinsert_ne _ _ hid, h3]
          · show byId p.id (s.gantt ++ [(p₀.id, s.time, s.time + min q r₀)]) = []
            rw [byId_append, h5, byId_single_ne hidne, List.append_nil]
        · -- admitted now: in the queue
          have hpb : 1 ≤ p.burst := hv.1 p ((sortByArrival_perm ps).subset hp)
          have harrp : p.arrival ≤ s.time + min q r₀ := by
            by_cases hT : idCount p.id (s.rest.takeWhile (fun p => p.arrival ≤ s.time)) = 0
            · -- it must be in the second admission pass
              have hT2pos : 1 ≤ idCount p.id ((s.rest.dropWhile
                  (fun p => p.arrival ≤ s.time)).takeWhile
                  (fun p' => p'.arrival ≤ s.time + min q r₀)) := by omega
              have hmem : p ∈ (s.rest.dropWhile (fun p => p.arrival ≤ s.time)).takeWhile
                  (fun p' => p'.arrival ≤ s.time + min q r₀) :=
                mem_of_idCount_pos hnodup hp
                  (fun x hx => hI.restMem x
                    ((List.dropWhile_sublist _).mem ((List.takeWhile_sublist _).mem hx)))
                  hT2pos
              simpa using List.mem_takeWhile_imp hmem
            · have hTpos : 1 ≤ idCount p.id
                  (s.rest.takeWhile (fun p => p.arrival ≤ s.time)) := by omega
              have hmem : p ∈ s.rest.takeWhile (fun p => p.arrival ≤ s.time) :=
                mem_of_idCount_pos hnodup hp
                  (fun x hx => hI.restMem x ((List.takeWhile_sublist _).mem hx)) hTpos
              have : p.arrival ≤ s.time := by simpa using List.mem_takeWhile_imp hmem
              omega
          refine Or.inr (Or.inl ⟨?_, ?_, ?_, harrp, p.burst, ?_, hpb, le_refl _, ?_, ?_⟩)
          · show idCount p.id ((s.rest.dropWhile (fun p => p.arrival ≤ s.time)).dropWhile
              (fun p' => p'.arrival ≤ s.time + min q r₀)) = 0
            omega
          · show idCount p.id (qs ++ (s.rest.dropWhile
              (fun p => p.arrival ≤ s.time)).takeWhile
              (fun p' => p'.arrival ≤ s.time + min q r₀) ++ [p₀]) = 1
            rw [idCount_append, idCount_append, hone]
            omega
          · show dlookup p.id s.fin = none
            exact h4
          · show dlookup p.id (dinsert p₀.id (r₀ - min q r₀) s.rem) = some p.burst
            rw [dlookup_dinsert_ne _ _ hid, h3]
          · show sumDur p.id (s.gantt ++ [(p₀.id, s.time, s.time + min q r₀)]) =
              p.burst - p.burst
            rw [sumDur_append, sumDur_of_byId_nil h5, sumDur_single_ne hidne]
            ring
          · show p.arrival + (p.burst - p.burst) ≤ s.time + min q r₀
            omega
      · -- was queued: stays queued
        have hD := idCount_dropWhile_le p.id (fun p => p.arrival ≤ s.time) s.rest
        refine Or.inr (Or.inl ⟨?_, ?_, ?_, ?_, r, ?_, hrr2, hrr3, ?_, ?_⟩)
        · show idCount p.id ((s.rest.dropWhile (fun p => p.arrival ≤ s.time)).dropWhile
            (fun p' => p'.arrival ≤ s.time + min q r₀)) = 0
          omega
        · show idCount p.id (qs ++ (s.rest.dropWhile
            (fun p => p.arrival ≤ s.time)).takeWhile
            (fun p' => p'.arrival ≤ s.time + min q r₀) ++ [p₀]) = 1
          rw [idCount_append, idCount_append, hone]
          omega
        · show dlookup p.id s.fin = none
          exact h3
        · show p.arrival ≤ s.time + min q r₀
          omega
        · show dlookup p.id (dinsert p₀.id (r₀ - min q r₀) s.rem) = some r
          rw [dlookup_dinsert_ne _ _ hid, hrr1]
        · show sumDur p.id (s.gantt ++ [(p₀.id, s.time, s.time + min q r₀)]) = p.burst - r
          rw [sumDur_append, hrr4, sumDur_single_ne hidne]
          ring
        · show p.arrival + (p.burst - r) ≤ s.time + min q r₀
          omega
      · -- was finished: stays finished
        have hD := idCount_dropWhile_le p.id (fun p => p.arrival ≤ s.time) s.rest
        refine Or.inr (Or.inr ⟨?_, ?_, ?_, ?_, f, hf1, hf2, ?_⟩)
        · show idCount p.id ((s.rest.dropWhile (fun p => p.arrival ≤ s.time)).dropWhile
            (fun p' => p'.arrival ≤ s.time + min q r₀)) = 0
          omega
        · show idCount p.id (qs ++ (s.rest.dropWhile
            (fun p => p.arrival ≤ s.time)).takeWhile
            (fun p' => p'.arrival ≤ s.time + min q r₀) ++ [p₀]) = 0
          rw [idCount_append, idCount_append, hone]
          omega
        · show dlookup p.id (dinsert p₀.id (r₀ - min q r₀) s.rem) = some 0
          rw [dlookup_dinsert_ne _ _ hid, h3]
        · show sumDur p.id (s.gantt ++ [(p₀.id, s.time, s.time + min q r₀)]) = p.burst
          rw [sumDur_append, h4, sumDur_single_ne hidne]
          ring
        · show f ≤ s.time + min q r₀
          omega
  · show (s.gantt ++ [(p₀.id, s.time, s.time + min q r₀)]).Pairwise
      (fun a b => a.2.2 ≤ b.2.1)
    rw [List.pairwise_append]
    refine ⟨hI.chron, List.pairwise_singleton _ _, ?_⟩
    intro a ha b hb2
    rw [List.mem_singleton] at hb2
    subst hb2
    show a.2.2 ≤ s.time
    exact (hI.bounds a ha).2
  · intro e he
    have he' : e ∈ s.gantt ++ [(p₀.id, s.time, s.time + min q r₀)] := he
    rcases List.mem_append.mp he' with h | h
    · obtain ⟨hb1, hb2⟩ := hI.bounds e h
      refine ⟨hb1, ?_⟩
      show e.2.2 ≤ s.time + min q r₀
      omega
    · rw [List.mem_singleton] at h
      subst h
      exact ⟨by show s.time ≤ s.time + min q r₀; omega,
        by show s.time + min q r₀ ≤ s.time + min q r₀; omega⟩
  · show s.time + min q r₀ + remSum (dinsert p₀.id (r₀ - min q r₀) s.rem)
      ((qs ++ (s.rest.dropWhile (fun p => p.arrival ≤ s.time)).takeWhile
        (fun p' => p'.arrival ≤ s.time + min q r₀) ++ [p₀]) ++
      (s.rest.dropWhile (fun p => p.arrival ≤ s.time)).dropWhile
        (fun p' => p'.arrival ≤ s.time + min q r₀)) ≤
      maxArrival ps + sumBurst ps
    rw [remSum_perm _ hperm2, remSum_cons, dlookup_dinsert_self,
      remSum_dinsert_ne _ _ hp₀nin]
    have hts := hI.timeSum
    rw [hpend_eq, remSum_cons, hget] at hts
    show s.time + min q r₀ + ((some (r₀ - min q r₀)).getD 0 +
      remSum s.rem (qs ++ s.rest.dropWhile (fun p => p.arrival ≤ s.time))) ≤
      maxArrival ps + sumBurst ps
    have hgd : (some (r₀ - min q r₀)).getD 0 = r₀ - min q r₀ := rfl
    rw [hgd]
    omega
  · show remSum (dinsert p₀.id (r₀ - min q r₀) s.rem)
      ((qs ++ (s.rest.dropWhile (fun p => p.arrival ≤ s.time)).takeWhile
        (fun p' => p'.arrival ≤ s.time + min q r₀) ++ [p₀]) ++
      (s.rest.dropWhile (fun p => p.arrival ≤ s.time)).dropWhile
        (fun p' => p'.arrival ≤ s.time + min q r₀)) ≤ sumBurst ps
    rw [remSum_perm _ hperm2, remSum_cons, dlookup_dinsert_self,
      remSum_dinsert_ne _ _ hp₀nin]
    have hts := hI.pendSum
    rw [hpend_eq, remSum_cons, hget] at hts
    show (some (r₀ - min q r₀)).getD 0 +
      remSum s.rem (qs ++ s.rest.dropWhile (fun p => p.arrival ≤ s.time)) ≤ sumBurst ps
    have hgd : (some (r₀ - min q r₀)).getD 0 = r₀ - min q r₀ := rfl
    rw [hgd]
    omega
  · show s.time + 1 ≤ s.time + min q r₀
    omega

/-- One step of the round robin loop preserves the invariant and strictly
advances the clock (positive quantum). -/
theorem rrInv_step (q : Int) (hq : 1 ≤ q) (ps : List Process) (hv : ValidInput ps)
    (s : RRState) (hI : RRInv ps s) (hnd : ¬ rrDone s) :
    RRInv ps (rrStep q s) ∧ s.time + 1 ≤ (rrStep q s).time := by
  cases hqa : s.queue ++ s.rest.takeWhile (fun p => p.arrival ≤ s.time) with
  | nil => exact rrInv_step_idle q ps s hI hnd hqa
  | cons p₀ qs =>
    by_cases hb : 0 < (dlookup p₀.id s.rem).getD 0 - min q ((dlookup p₀.id s.rem).getD 0)
    · exact rrInv_step_requeue q hq ps hv s hI p₀ qs hqa hb
    · exact rrInv_step_finish q hq ps hv s hI p₀ qs hqa hb

theorem remSum_eq_sumBurst {rem : Dict} {l : List Process}
    (h : ∀ p ∈ l, dlookup p.id rem = some p.burst) : remSum rem l = sumBurst l := by
  induction l with
  | nil => rfl
  | cons p l' ih =>
    rw [remSum_cons, sumBurst_cons, h p (List.mem_cons_self _ _),
      ih fun p hp => h p (List.mem_cons_of_mem _ hp)]
    rfl

theorem remSum_nonneg {rem : Dict} {l : List Process}
    (h : ∀ p ∈ l, 0 ≤ (dlookup p.id rem).getD 0) : 0 ≤ remSum rem l := by
  induction l with
  | nil => exact le_refl 0
  | cons p l' ih =>
    rw [remSum_cons]
    have h1 := h p (List.mem_cons_self _ _)
    have h2 := ih fun p hp => h p (List.mem_cons_of_mem _ hp)
    omega

/-- The round robin invariant holds initially. -/
theorem rrInv_init (ps : List Process) (hv : ValidInput ps) : RRInv ps (rrInit ps) := by
  have hnodup : ((sortByArrival ps).map Process.id).Nodup :=
    (((sortByArrival_perm ps).map Process.id).nodup_iff).mpr hv.2.2
  have hperm := sortByArrival_perm ps
  have hrem := initRem_lookup hnodup
  refine ⟨?_, ?_, ?_, ?_, ?_, ?_, ?_, ?_, ?_⟩
  · intro p hp; exact hp
  · intro p hp; cases hp
  · exact sortByArrival_sorted ps
  · exact hnodup
  · intro p hp
    exact Or.inl ⟨idCount_eq_one_of_nodup hnodup hp, rfl, hrem p hp, rfl, rfl⟩
  · exact List.Pairwise.nil
  · intro e he; cases he
  · show (0 : Int) + remSum (initRem (sortByArrival ps)) ([] ++ sortByArrival ps) ≤ _
    rw [List.nil_append, remSum_eq_sumBurst hrem, sumBurst_perm hperm]
    have := maxArrival_nonneg ps
    omega
  · show remSum (initRem (sortByArrival ps)) ([] ++ sortByArrival ps) ≤ _
    rw [List.nil_append, remSum_eq_sumBurst hrem, sumBurst_perm hperm]

/-- Along the invariant, the pending remaining bursts are non-negative. -/
theorem rrPend_nonneg (ps : List Process) (hv : ValidInput ps) (s : RRState)
    (hI : RRInv ps s) : 0 ≤ remSum s.rem (s.queue ++ s.rest) := by
  refine remSum_nonneg ?_
  intro p hp
  rcases List.mem_append.mp hp with h | h
  · have hpS := hI.queueMem p h
    rcases hI.acct p hpS with ⟨_, h2, _, _, _⟩ |
      ⟨_, _, _, _, r, hr1, hr2, _, _, _⟩ | ⟨_, h2, _, _, _⟩
    · exact absurd (idCount_pos_of_mem h) (by omega)
    · rw [hr1]
      show 0 ≤ r
      omega
    · exact absurd (idCount_pos_of_mem h) (by omega)
  · have hpS := hI.restMem p h
    rcases hI.acct p hpS with ⟨_, _, h3, _, _⟩ |
      ⟨h1, _, _, _, _⟩ | ⟨h1, _, _, _, _⟩
    · rw [h3]
      show 0 ≤ p.burst
      have := hv.1 p ((sortByArrival_perm ps).subset hpS)
      omega
    · exact absurd (idCount_pos_of_mem h) (by omega)
    · exact absurd (idCount_pos_of_mem h) (by omega)

/-- On a valid input with positive quantum the round robin loop terminates
within the fuel bound, in an invariant final state. -/
theorem rr_run_total (q : Int) (hq : 1 ≤ q) (ps : List Process) (hv : ValidInput ps) :
    ∃ s', rrLoop q (loopFuel ps) (rrInit ps) = some s' ∧ RRInv ps s' ∧ rrDone s' := by
  have hstep : ∀ s, RRInv ps s → ¬ rrDone s →
      RRInv ps (rrStep q s) ∧
      (maxArrival ps + sumBurst ps + 1 - (rrStep q s).time).toNat <
        (maxArrival ps + sumBurst ps + 1 - s.time).toNat := by
    intro s hI hnd
    obtain ⟨hI', ht⟩ := rrInv_step q hq ps hv s hI hnd
    refine ⟨hI', ?_⟩
    have hpend0 := rrPend_nonneg ps hv s hI
    have h1 := hI.timeSum
    omega
  obtain ⟨s', hs'⟩ := rrLoop_term q (RRInv ps)
    (fun s => (maxArrival ps + sumBurst ps + 1 - s.time).toNat) hstep
    (loopFuel ps) (rrInit ps) (rrInv_init ps hv)
    (by show (maxArrival ps + sumBurst ps + 1 - (0 : Int)).toNat ≤ loopFuel ps
        unfold loopFuel
        omega)
  obtain ⟨hI', hd⟩ := rrLoop_inv q (RRInv ps)
    (fun s hI hnd => (rrInv_step q hq ps hv s hI hnd).1) _ _ _ (rrInv_init ps hv) hs'
  exact ⟨s', hs', hI', hd⟩

/-- Characterisation of the final waiting/turnaround computation of
`round_robin`. -/
theorem rrFinGo_spec (l : List Process) :
    ∀ (fin w t : Dict), (l.map Process.id).Nodup →
    (∀ p ∈ l, ∃ f, dlookup p.id fin = some f) →
    ∃ w' t', rrFinGo fin w t l = some (w', t') ∧
      (∀ p ∈ l, ∃ f, dlookup p.id fin = some f ∧
        dlookup p.id w' = some (f - p.arrival - p.burst) ∧
        dlookup p.id t' = some (f - p.arrival)) ∧
      (∀ k, k ∉ l.map Process.id →
        dlookup k w' = dlookup k w ∧ dlookup k t' = dlookup k t) := by
  induction l with
  | nil =>
    intro fin w t _ _
    exact ⟨w, t, rfl, fun p hp => absurd hp (List.not_mem_nil p), fun k _ => ⟨rfl, rfl⟩⟩
  | cons p rest ih =>
    intro fin w t hn hcov
    obtain ⟨f, hf⟩ := hcov p (List.mem_cons_self _ _)
    have hpid : p.id ∉ rest.map Process.id := (List.nodup_cons.mp hn).1
    obtain ⟨w', t', hgo, hmem, hout⟩ :=
      ih fin (dinsert p.id (f - p.arrival - p.burst) w) (dinsert p.id (f - p.arrival) t)
        (List.nodup_cons.mp hn).2
        (fun p' hp' => hcov p' (List.mem_cons_of_mem _ hp'))
    have hstep : rrFinGo fin w t (p :: rest) =
        rrFinGo fin (dinsert p.id (f - p.arrival - p.burst) w)
          (dinsert p.id (f - p.arrival) t) rest := by
      show (match dlookup p.id fin with
        | none => none
        | some f =>
          rrFinGo fin (dinsert p.id (f - p.arrival - p.burst) w)
            (dinsert p.id (f - p.arrival) t) rest) = _
      rw [hf]
    refine ⟨w', t', by rw [hstep]; exact hgo, ?_, ?_⟩
    · intro p' hp'
      rcases List.mem_cons.mp hp' with h | h
      · subst h
        refine ⟨f, hf, ?_, ?_⟩
        · rw [(hout p'.id hpid).1, dlookup_dinsert_self]
        · rw [(hout p'.id hpid).2, dlookup_dinsert_self]
      · exact hmem p' h
    · intro k hk
      have hk1 : k ≠ p.id := fun h => hk (by simp [h])
      have hk2 : k ∉ rest.map Process.id := fun h => hk (by simp [h])
      refine ⟨?_, ?_⟩
      · rw [(hout k hk2).1, dlookup_dinsert_ne _ _ hk1]
      · rw [(hout k hk2).2, dlookup_dinsert_ne _ _ hk1]

/-- The result-level facts for `round_robin` on a valid input with a
positive quantum. -/
theorem rrFinal (q : Int) (hq : 1 ≤ q) (ps : List Process) (hv : ValidInput ps) :
    ∃ g w t, round_robin ps q = some (g, w, t) ∧
      (∀ p ∈ ps, sumDur p.id g = p.burst) ∧
      g.Pairwise (fun a b => a.2.2 ≤ b.2.1) ∧
      (∀ e ∈ g, e.2.1 ≤ e.2.2) ∧
      (∀ p ∈ ps, ∃ wv, dlookup p.id w = some wv ∧ 0 ≤ wv ∧
        dlookup p.id t = some (wv + p.burst)) ∧
      (∀ k, (dlookup k w).isSome → k ∈ ps.map Process.id) ∧
      (∀ k, (dlookup k t).isSome → k ∈ ps.map Process.id) := by
  obtain ⟨s', hs', hI, hd⟩ := rr_run_total q hq ps hv
  have hnodup : ((sortByArrival ps).map Process.id).Nodup :=
    (((sortByArrival_perm ps).map Process.id).nodup_iff).mpr hv.2.2
  have hd3 : ∀ p ∈ sortByArrival ps, sumDur p.id s'.gantt = p.burst ∧
      ∃ f, dlookup p.id s'.fin = some f ∧ p.arrival + p.burst ≤ f := by
    intro p hp
    rcases hI.acct p hp with ⟨h1, _, _, _, _⟩ | ⟨_, h2, _, _, _⟩ |
      ⟨_, _, _, h4, f, hf1, hf2, _⟩
    · exfalso
      rw [hd.1] at h1
      simp [idCount] at h1
    · exfalso
      rw [hd.2] at h2
      simp [idCount] at h2
    · exact ⟨h4, f, hf1, hf2⟩
  obtain ⟨w', t', hgo, hmem, hout⟩ := rrFinGo_spec (sortByArrival ps) s'.fin [] [] hnodup
    (fun p hp => ((hd3 p hp).2).imp fun f hf => hf.1)
  refine ⟨s'.gantt, w', t', ?_, ?_, hI.chron, fun e he => (hI.bounds e he).1, ?_, ?_, ?_⟩
  · show (match rrLoop q (loopFuel ps) (rrInit ps) with
      | none => none
      | some s =>
        (rrFinGo s.fin [] [] (sortByArrival ps)).map fun wt => (s.gantt, wt.1, wt.2)) =
      some (s'.gantt, w', t')
    rw [hs']
    show Option.map (fun wt => (s'.gantt, wt.1, wt.2))
      (rrFinGo s'.fin [] [] (sortByArrival ps)) = some (s'.gantt, w', t')
    rw [hgo]
    rfl
  · intro p hp
    exact (hd3 p ((sortByArrival_perm ps).mem_iff.mpr hp)).1
  · intro p hp
    have hpS := (sortByArrival_perm ps).mem_iff.mpr hp
    obtain ⟨f, hf1, hw, ht⟩ := hmem p hpS
    obtain ⟨_, f', hf1', hf2'⟩ := hd3 p hpS
    have hff : f' = f := Option.some.inj (hf1'.symm.trans hf1)
    subst hff
    refine ⟨f' - p.arrival - p.burst, hw, by omega, ?_⟩
    rw [ht]
    congr 1
    ring
  · intro k hk
    by_contra hkn
    have hks : k ∉ (sortByArrival ps).map Process.id :=
      fun h => hkn (((sortByArrival_perm ps).map Process.id).subset h)
    rw [(hout k hks).1] at hk
    simp [dlookup] at hk
  · intro k hk
    by_contra hkn
    have hks : k ∉ (sortByArrival ps).map Process.id :=
      fun h => hkn (((sortByArrival_perm ps).map Process.id).subset h)
    rw [(hout k hks).2] at hk
    simp [dlookup] at hk

theorem timeline_starts_sorted {g : Timeline}
    (hc : g.Pairwise (fun a b => a.2.2 ≤ b.2.1)) (hd : ∀ e ∈ g, e.2.1 ≤ e.2.2) :
    TimelineOk g := by
  refine ⟨?_, hc⟩
  refine List.Pairwise.imp_of_mem ?_ hc
  intro a b ha hb hab
  have := hd a ha
  omega

theorem sjf_eq_of_loop {ps : List Process} {s' : NPState}
    (hs' : npLoop sortByBurst (loopFuel ps) (npInit ps) = some s') :
    sjf ps = some (s'.gantt, s'.w, s'.t) := by
  unfold sjf
  rw [hs']
  rfl

theorem priority_eq_of_loop {ps : List Process} {s' : NPState}
    (hs' : npLoop sortByPriority (loopFuel ps) (npInit ps) = some s') :
    priority_scheduling ps = some (s'.gantt, s'.w, s'.t) := by
  unfold priority_scheduling
  rw [hs']
  rfl

theorem sumDur_of_byId_single {i : String} {g : Timeline} {st b : Int}
    (h : byId i g = [(i, st, st + b)]) : sumDur i g = b := by
  rw [sumDur_eq_byId, h, sumDur_single_eq]
  ring

theorem countId_of_byId_single {i : String} {g : Timeline} {x : String × Int × Int}
    (h : byId i g = [x]) : countId i g = 1 := by
  rw [countId_eq_byId_length, h]
  rfl

/-! ### C4 -/

/-- C4: on a valid input (unique ids, positive bursts, non-negative
arrivals, and a positive quantum for round robin) each of the four
scheduling functions terminates and returns a result: `fcfs` is total by
structural recursion, and for the three loop-based functions the fuel
bound `loopFuel` is proven sufficient — the clock strictly increases every
iteration and stays bounded by `maxArrival + sumBurst`. -/
theorem C4_termination (ps : List Process) (q : Int)
    (hv : ValidInput ps) (hq : 1 ≤ q) :
    (∃ r, fcfs ps = r) ∧ (sjf ps).isSome ∧ (priority_scheduling ps).isSome ∧
    (round_robin ps q).isSome := by
  refine ⟨⟨fcfs ps, rfl⟩, ?_, ?_, ?_⟩
  · obtain ⟨s', hs', _, _⟩ := np_run_total sortByBurst sortByBurst_perm ps hv
    rw [sjf_eq_of_loop hs']
    rfl
  · obtain ⟨s', hs', _, _⟩ := np_run_total sortByPriority sortByPriority_perm ps hv
    rw [priority_eq_of_loop hs']
    rfl
  · obtain ⟨g, w, t, hrr, _⟩ := rrFinal q hq ps hv
    rw [hrr]
    rfl

/-- C4 witness on the worked example with quantum 2. -/
theorem C4_termination_witness :
    (∃ r, fcfs exampleProcs = r) ∧ (sjf exampleProcs).isSome ∧
    (priority_scheduling exampleProcs).isSome ∧ (round_robin exampleProcs 2).isSome :=
  C4_termination exampleProcs 2 (by decide) (by decide)

/-! ### C5 -/

/-- C5: conservation — on a valid input (with positive quantum for round
robin), for every process the total duration of its execution intervals in
the returned timeline equals its burst exactly, for each of the four
scheduling functions. -/
theorem C5_conservation (ps : List Process) (q : Int)
    (hv : ValidInput ps) (hq : 1 ≤ q) :
    (∀ p ∈ ps, sumDur p.id (fcfs ps).1 = p.burst) ∧
    (∀ r, sjf ps = some r → ∀ p ∈ ps, sumDur p.id r.1 = p.burst) ∧
    (∀ r, priority_scheduling ps = some r → ∀ p ∈ ps, sumDur p.id r.1 = p.burst) ∧
    (∀ r, round_robin ps q = some r → ∀ p ∈ ps, sumDur p.id r.1 = p.burst) := by
  refine ⟨?_, ?_, ?_, ?_⟩
  · intro p hp
    obtain ⟨st, hb, _, _, _⟩ := (fcfsFinal ps hv).1 p hp
    exact sumDur_of_byId_single hb
  · obtain ⟨s', hs', hfacts, _⟩ := npFinal sortByBurst sortByBurst_perm ps hv
    intro r hr p hp
    have he := Option.some.inj ((sjf_eq_of_loop hs').symm.trans hr)
    obtain ⟨st, hb, _, _, _⟩ := hfacts p hp
    rw [← he]
    exact sumDur_of_byId_single hb
  · obtain ⟨s', hs', hfacts, _⟩ := npFinal sortByPriority sortByPriority_perm ps hv
    intro r hr p hp
    have he := Option.some.inj ((priority_eq_of_loop hs').symm.trans hr)
    obtain ⟨st, hb, _, _, _⟩ := hfacts p hp
    rw [← he]
    exact sumDur_of_byId_single hb
  · obtain ⟨g, w, t, hrr, hcons, _⟩ := rrFinal q hq ps hv
    intro r hr p hp
    have he := Option.some.inj (hrr.symm.trans hr)
    rw [← he]
    exact hcons p hp

/-- C5 witness on the worked example with quantum 2. -/
theorem C5_conservation_witness :
    (∀ p ∈ exampleProcs, sumDur p.id (fcfs exampleProcs).1 = p.burst) ∧
    (∀ r, sjf exampleProcs = some r → ∀ p ∈ exampleProcs, sumDur p.id r.1 = p.burst) ∧
    (∀ r, priority_scheduling exampleProcs = some r →
      ∀ p ∈ exampleProcs, sumDur p.id r.1 = p.burst) ∧
    (∀ r, round_robin exampleProcs 2 = some r →
      ∀ p ∈ exampleProcs, sumDur p.id r.1 = p.burst) :=
  C5_conservation exampleProcs 2 (by decide) (by decide)

/-! ### C6 -/

/-- C6: non-overlap and chronological order — on a valid input (with
positive quantum for round robin) the timeline returned by each of the
four scheduling functions lists intervals in non-decreasing start order,
and each interval starts no earlier than the preceding interval
finishes. -/
theorem C6_nonoverlap (ps : List Process) (q : Int)
    (hv : ValidInput ps) (hq : 1 ≤ q) :
    TimelineOk (fcfs ps).1 ∧
    (∀ r, sjf ps = some r → TimelineOk r.1) ∧
    (∀ r, priority_scheduling ps = some r → TimelineOk r.1) ∧
    (∀ r, round_robin ps q = some r → TimelineOk r.1) := by
  refine ⟨?_, ?_, ?_, ?_⟩
  · exact timeline_starts_sorted (fcfsFinal ps hv).2.1 (fcfsFinal ps hv).2.2.1
  · obtain ⟨s', hs', _, hchron, hdur, _⟩ := npFinal sortByBurst sortByBurst_perm ps hv
    intro r hr
    have he := Option.some.inj ((sjf_eq_of_loop hs').symm.trans hr)
    rw [← he]
    exact timeline_starts_sorted hchron hdur
  · obtain ⟨s', hs', _, hchron, hdur, _⟩ := npFinal sortByPriority sortByPriority_perm ps hv
    intro r hr
    have he := Option.some.inj ((priority_eq_of_loop hs').symm.trans hr)
    rw [← he]
    exact timeline_starts_sorted hchron hdur
  · obtain ⟨g, w, t, hrr, _, hchron, hdur, _⟩ := rrFinal q hq ps hv
    intro r hr
    have he := Option.some.inj (hrr.symm.trans hr)
    rw [← he]
    exact timeline_starts_sorted hchron hdur

/-- C6 witness on the worked example with quantum 2. -/
theorem C6_nonoverlap_witness :
    TimelineOk (fcfs exampleProcs).1 ∧
    (∀ r, sjf exampleProcs = some r → TimelineOk r.1) ∧
    (∀ r, priority_scheduling exampleProcs = some r → TimelineOk r.1) ∧
    (∀ r, round_robin exampleProcs 2 = some r → TimelineOk r.1) :=
  C6_nonoverlap exampleProcs 2 (by decide) (by decide)

/-! ### C8 -/

/-- C8: non-preemption — on a valid non-empty input, under each of `fcfs`,
`sjf` and `priority_scheduling` every process contributes exactly one
execution interval to the timeline, that interval spans its full burst,
and it starts no earlier than the process's arrival. -/
theorem C8_nonpreemption (ps : List Process) (hv : ValidInput ps) (hne : ps ≠ []) :
    (∀ p ∈ ps, countId p.id (fcfs ps).1 = 1 ∧
      ∃ st, (p.id, st, st + p.burst) ∈ (fcfs ps).1 ∧ p.arrival ≤ st) ∧
    (∀ r, sjf ps = some r → ∀ p ∈ ps, countId p.id r.1 = 1 ∧
      ∃ st, (p.id, st, st + p.burst) ∈ r.1 ∧ p.arrival ≤ st) ∧
    (∀ r, priority_scheduling ps = some r → ∀ p ∈ ps, countId p.id r.1 = 1 ∧
      ∃ st, (p.id, st, st + p.burst) ∈ r.1 ∧ p.arrival ≤ st) := by
  refine ⟨?_, ?_, ?_⟩
  · intro p hp
    obtain ⟨st, hb, harr, _, _⟩ := (fcfsFinal ps hv).1 p hp
    refine ⟨countId_of_byId_single hb, st, ?_, harr⟩
    have hx : (p.id, st, st + p.burst) ∈ byId p.id (fcfs ps).1 := by
      rw [hb]
      exact List.mem_singleton.mpr rfl
    exact List.mem_of_mem_filter hx
  · obtain ⟨s', hs', hfacts, _⟩ := npFinal sortByBurst sortByBurst_perm ps hv
    intro r hr p hp
    have he := Option.some.inj ((sjf_eq_of_loop hs').symm.trans hr)
    obtain ⟨st, hb, harr, _, _⟩ := hfacts p hp
    rw [← he]
    refine ⟨countId_of_byId_single hb, st, ?_, harr⟩
    have hx : (p.id, st, st + p.burst) ∈ byId p.id s'.gantt := by
      rw [hb]
      exact List.mem_singleton.mpr rfl
    exact List.mem_of_mem_filter hx
  · obtain ⟨s', hs', hfacts, _⟩ := npFinal sortByPriority sortByPriority_perm ps hv
    intro r hr p hp
    have he := Option.some.inj ((priority_eq_of_loop hs').symm.trans hr)
    obtain ⟨st, hb, harr, _, _⟩ := hfacts p hp
    rw [← he]
    refine ⟨countId_of_byId_single hb, st, ?_, harr⟩
    have hx : (p.id, st, st + p.burst) ∈ byId p.id s'.gantt := by
      rw [hb]
      exact List.mem_singleton.mpr rfl
    exact List.mem_of_mem_filter hx

/-- C8 witness on the worked example. -/
theorem C8_nonpreemption_witness :
    (∀ p ∈ exampleProcs, countId p.id (fcfs exampleProcs).1 = 1 ∧
      ∃ st, (p.id, st, st + p.burst) ∈ (fcfs exampleProcs).1 ∧ p.arrival ≤ st) ∧
    (∀ r, sjf exampleProcs = some r → ∀ p ∈ exampleProcs, countId p.id r.1 = 1 ∧
      ∃ st, (p.id, st, st + p.burst) ∈ r.1 ∧ p.arrival ≤ st) ∧
    (∀ r, priority_scheduling exampleProcs = some r →
      ∀ p ∈ exampleProcs, countId p.id r.1 = 1 ∧
      ∃ st, (p.id, st, st + p.burst) ∈ r.1 ∧ p.arrival ≤ st) :=
  C8_nonpreemption exampleProcs (by decide) (by decide)

/-! ### C9 -/

/-- C9: waiting/turnaround identity — on a valid input (with positive
quantum for round robin), for every process the returned mappings satisfy
`turnaround = waiting + burst` with `waiting ≥ 0`, and both mappings are
defined exactly on the set of input process ids, for each of the four
scheduling functions. -/
theorem C9_identity (ps : List Process) (q : Int)
    (hv : ValidInput ps) (hq : 1 ≤ q) :
    ((∀ p ∈ ps, ∃ wv, dlookup p.id (fcfs ps).2.1 = some wv ∧ 0 ≤ wv ∧
        dlookup p.id (fcfs ps).2.2 = some (wv + p.burst)) ∧
      (∀ k, (dlookup k (fcfs ps).2.1).isSome ∨ (dlookup k (fcfs ps).2.2).isSome →
        k ∈ ps.map Process.id)) ∧
    (∀ r, sjf ps = some r →
      (∀ p ∈ ps, ∃ wv, dlookup p.id r.2.1 = some wv ∧ 0 ≤ wv ∧
        dlookup p.id r.2.2 = some (wv + p.burst)) ∧
      (∀ k, (dlookup k r.2.1).isSome ∨ (dlookup k r.2.2).isSome →
        k ∈ ps.map Process.id)) ∧
    (∀ r, priority_scheduling ps = some r →
      (∀ p ∈ ps, ∃ wv, dlookup p.id r.2.1 = some wv ∧ 0 ≤ wv ∧
        dlookup p.id r.2.2 = some (wv + p.burst)) ∧
      (∀ k, (dlookup k r.2.1).isSome ∨ (dlookup k r.2.2).isSome →
        k ∈ ps.map Process.id)) ∧
    (∀ r, round_robin ps q = some r →
      (∀ p ∈ ps, ∃ wv, dlookup p.id r.2.1 = some wv ∧ 0 ≤ wv ∧
        dlookup p.id r.2.2 = some (wv + p.burst)) ∧
      (∀ k, (dlookup k r.2.1).isSome ∨ (dlookup k r.2.2).isSome →
        k ∈ ps.map Process.id)) := by
  refine ⟨⟨?_, ?_⟩, ?_, ?_, ?_⟩
  · intro p hp
    obtain ⟨st, _, harr, hw, ht⟩ := (fcfsFinal ps hv).1 p hp
    refine ⟨st - p.arrival, hw, by omega, ?_⟩
    rw [ht]
    congr 1
    ring
  · intro k hk
    rcases hk with hk | hk
    · exact (fcfsFinal ps hv).2.2.2.1 k hk
    · exact (fcfsFinal ps hv).2.2.2.2 k hk
  · obtain ⟨s', hs', hfacts, _, _, hwdom, htdom⟩ := npFinal sortByBurst sortByBurst_perm ps hv
    intro r hr
    have he := Option.some.inj ((sjf_eq_of_loop hs').symm.trans hr)
    rw [← he]
    refine ⟨?_, ?_⟩
    · intro p hp
      obtain ⟨st, _, harr, hw, ht⟩ := hfacts p hp
      refine ⟨st - p.arrival, hw, by omega, ?_⟩
      rw [ht]
      congr 1
      ring
    · intro k hk
      rcases hk with hk | hk
      · exact hwdom k hk
      · exact htdom k hk
  · obtain ⟨s', hs', hfacts, _, _, hwdom, htdom⟩ :=
      npFinal sortByPriority sortByPriority_perm ps hv
    intro r hr
    have he := Option.some.inj ((priority_eq_of_loop hs').symm.trans hr)
    rw [← he]
    refine ⟨?_, ?_⟩
    · intro p hp
      obtain ⟨st, _, harr, hw, ht⟩ := hfacts p hp
      refine ⟨st - p.arrival, hw, by omega, ?_⟩
      rw [ht]
      congr 1
      ring
    · intro k hk
      rcases hk with hk | hk
      · exact hwdom k hk
      · exact htdom k hk
  · obtain ⟨g, w, t, hrr, _, _, _, hids, hwdom, htdom⟩ := rrFinal q hq ps hv
    intro r hr
    have he := Option.some.inj (hrr.symm.trans hr)
    rw [← he]
    refine ⟨hids, ?_⟩
    intro k hk
    rcases hk with hk | hk
    · exact hwdom k hk
    · exact htdom k hk

/-- C9 witness on the worked example with quantum 2. -/
theorem C9_identity_witness :
    ((∀ p ∈ exampleProcs, ∃ wv,
        dlookup p.id (fcfs exampleProcs).2.1 = some wv ∧ 0 ≤ wv ∧
        dlookup p.id (fcfs exampleProcs).2.2 = some (wv + p.burst)) ∧
      (∀ k, (dlookup k (fcfs exampleProcs).2.1).isSome ∨
          (dlookup k (fcfs exampleProcs).2.2).isSome →
        k ∈ exampleProcs.map Process.id)) ∧
    (∀ r, sjf exampleProcs = some r →
      (∀ p ∈ exampleProcs, ∃ wv, dlookup p.id r.2.1 = some wv ∧ 0 ≤ wv ∧
        dlookup p.id r.2.2 = some (wv + p.burst)) ∧
      (∀ k, (dlookup k r.2.1).isSome ∨ (dlookup k r.2.2).isSome →
        k ∈ exampleProcs.map Process.id)) ∧
    (∀ r, priority_scheduling exampleProcs = some r →
      (∀ p ∈ exampleProcs, ∃ wv, dlookup p.id r.2.1 = some wv ∧ 0 ≤ wv ∧
        dlookup p.id r.2.2 = some (wv + p.burst)) ∧
      (∀ k, (dlookup k r.2.1).isSome ∨ (dlookup k r.2.2).isSome →
        k ∈ exampleProcs.map Process.id)) ∧
    (∀ r, round_robin exampleProcs 2 = some r →
      (∀ p ∈ exampleProcs, ∃ wv, dlookup p.id r.2.1 = some wv ∧ 0 ≤ wv ∧
        dlookup p.id r.2.2 = some (wv + p.burst)) ∧
      (∀ k, (dlookup k r.2.1).isSome ∨ (dlookup k r.2.2).isSome →
        k ∈ exampleProcs.map Process.id)) :=
  C9_identity exampleProcs 2 (by decide) (by decide)

/-! ### C10: with a large quantum, round robin degenerates to FCFS -/

theorem fcfsGo_gantt_acc (l : List Process) :
    ∀ (time : Int) (g : Timeline) (w t : Dict),
    (fcfsGo time g w t l).1 = g ++ (fcfsGo time [] [] [] l).1 := by
  induction l with
  | nil => intro time g w t; simp [fcfsGo]
  | cons p rest ih =>
    intro time g w t
    show (fcfsGo ((if time < p.arrival then p.arrival else time) + p.burst)
        (g ++ [(p.id, if time < p.arrival then p.arrival else time,
          (if time < p.arrival then p.arrival else time) + p.burst)])
        (dinsert p.id ((if time < p.arrival then p.arrival else time) - p.arrival) w)
        (dinsert p.id ((if time < p.arrival then p.arrival else time) + p.burst - p.arrival) t)
        rest).1 =
      g ++ (fcfsGo ((if time < p.arrival then p.arrival else time) + p.burst)
        ([] ++ [(p.id, if time < p.arrival then p.arrival else time,
          (if time < p.arrival then p.arrival else time) + p.burst)])
        (dinsert p.id ((if time < p.arrival then p.arrival else time) - p.arrival) [])
        (dinsert p.id ((if time < p.arrival then p.arrival else time) + p.burst - p.arrival) [])
        rest).1
    rw [ih, ih ((if time < p.arrival then p.arrival else time) + p.burst)
      ([] ++ [(p.id, if time < p.arrival then p.arrival else time,
        (if time < p.arrival then p.arrival else time) + p.burst)])]
    rw [List.nil_append, List.append_assoc]

theorem finMatches_of_gantt (l : List Process) :
    ∀ (time : Int) (fin : Dict),
    (∀ e ∈ (fcfsGo time [] [] [] l).1, dlookup e.1 fin = some e.2.2) →
    finMatches fin time l := by
  induction l with
  | nil => intro time fin _; trivial
  | cons p rest ih =>
    intro time fin h
    have hgg : (fcfsGo time [] [] [] (p :: rest)).1 =
        (p.id, if time < p.arrival then p.arrival else time,
          (if time < p.arrival then p.arrival else time) + p.burst) ::
        (fcfsGo ((if time < p.arrival then p.arrival else time) + p.burst)
          [] [] [] rest).1 := by
      show (fcfsGo ((if time < p.arrival then p.arrival else time) + p.burst)
          ([] ++ [(p.id, if time < p.arrival then p.arrival else time,
            (if time < p.arrival then p.arrival else time) + p.burst)])
          (dinsert p.id ((if time < p.arrival then p.arrival else time) - p.arrival) [])
          (dinsert p.id
            ((if time < p.arrival then p.arrival else time) + p.burst - p.arrival) [])
          rest).1 = _
      rw [fcfsGo_gantt_acc, List.nil_append]
      rfl
    constructor
    · have := h (p.id, if time < p.arrival then p.arrival else time,
        (if time < p.arrival then p.arrival else time) + p.burst)
        (by rw [hgg]; exact List.mem_cons_self _ _)
      exact this
    · refine ih _ fin ?_
      intro e he
      refine h e ?_
      rw [hgg]
      exact List.mem_cons_of_mem _ he

theorem rrFinGo_eq_fcfsGo (l : List Process) :
    ∀ (time : Int) (g : Timeline) (w t fin : Dict), finMatches fin time l →
    rrFinGo fin w t l =
      some ((fcfsGo time g w t l).2.1, (fcfsGo time g w t l).2.2) := by
  induction l with
  | nil => intro time g w t fin _; rfl
  | cons p rest ih =>
    intro time g w t fin hm
    obtain ⟨hf, hm'⟩ := hm
    have hstep : rrFinGo fin w t (p :: rest) =
        rrFinGo fin
          (dinsert p.id ((if time < p.arrival then p.arrival else time) + p.burst -
            p.arrival - p.burst) w)
          (dinsert p.id ((if time < p.arrival then p.arrival else time) + p.burst -
            p.arrival) t) rest := by
      show (match dlookup p.id fin with
        | none => none
        | some f =>
          rrFinGo fin (dinsert p.id (f - p.arrival - p.burst) w)
            (dinsert p.id (f - p.arrival) t) rest) = _
      rw [hf]
    rw [hstep]
    have e1 : (if time < p.arrival then p.arrival else time) + p.burst -
        p.arrival - p.burst = (if time < p.arrival then p.arrival else time) - p.arrival := by
      ring
    rw [e1]
    exact ih ((if time < p.arrival then p.arrival else time) + p.burst)
      (g ++ [(p.id, if time < p.arrival then p.arrival else time,
        (if time < p.arrival then p.arrival else time) + p.burst)])
      (dinsert p.id ((if time < p.arrival then p.arrival else time) - p.arrival) w)
      (dinsert p.id ((if time < p.arrival then p.arrival else time) + p.burst - p.arrival) t)
      fin hm'

theorem rrSim_init (ps : List Process) (hv : ValidInput ps) : RRSim ps (rrInit ps) := by
  have hnodup : ((sortByArrival ps).map Process.id).Nodup :=
    (((sortByArrival_perm ps).map Process.id).nodup_iff).mpr hv.2.2
  refine ⟨⟨[], rfl, rfl⟩, ?_, ?_, ?_, ⟨[], [], rfl⟩⟩
  · intro p hp; cases hp
  · intro p hp
    exact initRem_lookup hnodup p hp
  · intro e he; cases he

theorem fcfsGo_congr_start (t₁ t₂ : Int) (p : Process) (rest : List Process)
    (g : Timeline) (w t : Dict)
    (h : (if t₁ < p.arrival then p.arrival else t₁) =
      (if t₂ < p.arrival then p.arrival else t₂)) :
    fcfsGo t₁ g w t (p :: rest) = fcfsGo t₂ g w t (p :: rest) := by
  show fcfsGo ((if t₁ < p.arrival then p.arrival else t₁) + p.burst)
      (g ++ [(p.id, if t₁ < p.arrival then p.arrival else t₁,
        (if t₁ < p.arrival then p.arrival else t₁) + p.burst)])
      (dinsert p.id ((if t₁ < p.arrival then p.arrival else t₁) - p.arrival) w)
      (dinsert p.id ((if t₁ < p.arrival then p.arrival else t₁) + p.burst - p.arrival) t)
      rest = _
  rw [h]
  rfl

/-- The simulation relation is preserved by every round robin step when
all bursts fit in the quantum. -/
theorem rrSim_step (q : Int) (ps : List Process) (hv : ValidInput ps)
    (hqb : ∀ p ∈ ps, p.burst ≤ q) (s : RRState) (hS : RRSim ps s) (hnd : ¬ rrDone s) :
    RRSim ps (rrStep q s) := by
  have hnodup : ((sortByArrival ps).map Process.id).Nodup :=
    (((sortByArrival_perm ps).map Process.id).nodup_iff).mpr hv.2.2
  obtain ⟨pre, hsplit, hgid⟩ := hS.split
  obtain ⟨w₀, t₀, hfgo⟩ := hS.fgo
  cases hqa : s.queue ++ s.rest.takeWhile (fun p => p.arrival ≤ s.time) with
  | nil =>
    have hq0 : s.queue = [] := (List.append_eq_nil.mp hqa).1
    have had : s.rest.takeWhile (fun p => p.arrival ≤ s.time) = [] :=
      (List.append_eq_nil.mp hqa).2
    have hdrop : s.rest.dropWhile (fun p => p.arrival ≤ s.time) = s.rest := by
      have h := List.takeWhile_append_dropWhile (fun p => decide (p.arrival ≤ s.time)) s.rest
      rw [had] at h
      simpa using h
    have hstep : rrStep q s =
        { rest := s.rest, queue := [], time := s.time + 1,
          rem := s.rem, gantt := s.gantt, fin := s.fin } := by
      rw [rrStep_eq, hqa]
      show
        { rest := s.rest.dropWhile (fun p => p.arrival ≤ s.time), queue := [],
          time := s.time + 1, rem := s.rem, gantt := s.gantt, fin := s.fin } =
        ({ rest := s.rest, queue := [], time := s.time + 1,
           rem := s.rem, gantt := s.gantt, fin := s.fin } : RRState)
      rw [hdrop]
    have hrest_ne : s.rest ≠ [] := fun h0 => hnd ⟨h0, hq0⟩
    obtain ⟨qh, l, hql⟩ := List.exists_cons_of_ne_nil hrest_ne
    have hqt : s.time < qh.arrival := by
      by_contra hc
      push_neg at hc
      have hne : s.rest.takeWhile (fun p => p.arrival ≤ s.time) ≠ [] := by
        rw [hql]
        simp [List.takeWhile_cons, hc]
      exact hne had
    rw [hstep]
    refine ⟨⟨pre, ?_, hgid⟩, ?_, ?_, hS.ganttFin, ⟨w₀, t₀, ?_⟩⟩
    · show sortByArrival ps = pre ++ ([] ++ s.rest)
      rw [← hq0]
      exact hsplit
    · intro p hp; cases hp
    · intro p hp
      refine hS.remFull p ?_
      rw [hq0]
      exact hp
    · show fcfsGo (s.time + 1) s.gantt w₀ t₀ ([] ++ s.rest) = fcfs ps
      have h0 : fcfsGo s.time s.gantt w₀ t₀ ([] ++ s.rest) = fcfs ps := by
        rw [← hq0]
        exact hfgo
      rw [List.nil_append] at h0 ⊢
      rw [hql] at h0 ⊢
      rw [fcfsGo_congr_start (s.time + 1) s.time qh l s.gantt w₀ t₀
        (by split_ifs <;> omega)]
      exact h0
  | cons p₀ qs =>
    have htd : s.rest.takeWhile (fun p => p.arrival ≤ s.time) ++
        s.rest.dropWhile (fun p => p.arrival ≤ s.time) = s.rest :=
      List.takeWhile_append_dropWhile _ _
    have hpend_eq : s.queue ++ s.rest =
        p₀ :: (qs ++ s.rest.dropWhile (fun p => p.arrival ≤ s.time)) := by
      conv_lhs => rw [← htd, ← List.append_assoc, hqa]
      rfl
    have hp₀mem : p₀ ∈ s.queue ++ s.rest := by
      rw [hpend_eq]
      exact List.mem_cons_self _ _
    have hp₀S : p₀ ∈ sortByArrival ps := by
      rw [hsplit]
      exact List.mem_append_right _ hp₀mem
    have hp₀ps : p₀ ∈ ps := (sortByArrival_perm ps).subset hp₀S
    have hb₀ : 1 ≤ p₀.burst := hv.1 p₀ hp₀ps
    have hrem₀ : dlookup p₀.id s.rem = some p₀.burst := hS.remFull p₀ hp₀mem
    have hget : (dlookup p₀.id s.rem).getD 0 = p₀.burst := by rw [hrem₀]; rfl
    have hexec : min q p₀.burst = p₀.burst := min_eq_right (hqb p₀ hp₀ps)
    have hstep : rrStep q s =
        { rest := s.rest.dropWhile (fun p => p.arrival ≤ s.time), queue := qs,
          time := s.time + p₀.burst, rem := dinsert p₀.id 0 s.rem,
          gantt := s.gantt ++ [(p₀.id, s.time, s.time + p₀.burst)],
          fin := dinsert p₀.id (s.time + p₀.burst) s.fin } := by
      rw [rrStep_cons q s p₀ qs hqa, hget, if_neg (by omega), hexec, sub_self]
    have hp₀r : p₀ ∈ s.queue ++ s.rest.takeWhile (fun p => p.arrival ≤ s.time) := by
      rw [hqa]
      exact List.mem_cons_self _ _
    have harr : p₀.arrival ≤ s.time := by
      rcases List.mem_append.mp hp₀r with h | h
      · exact hS.queueArr p₀ h
      · simpa using List.mem_takeWhile_imp h
    have hSids : (sortByArrival ps).map Process.id =
        pre.map Process.id ++ (s.queue ++ s.rest).map Process.id := by
      rw [hsplit, List.map_append]
    have hnd2 : (pre.map Process.id ++ (s.queue ++ s.rest).map Process.id).Nodup := by
      rw [← hSids]
      exact hnodup
    obtain ⟨hpre_nd, hpend_nd, hdisj⟩ := List.nodup_append.mp hnd2
    have hp₀tl : p₀.id ∉ (qs ++ s.rest.dropWhile (fun p => p.arrival ≤ s.time)).map
        Process.id := by
      have h := hpend_nd
      rw [hpend_eq, List.map_cons] at h
      exact (List.nodup_cons.mp h).1
    rw [hstep]
    refine ⟨⟨pre ++ [p₀], ?_, ?_⟩, ?_, ?_, ?_, ?_⟩
    · show sortByArrival ps = (pre ++ [p₀]) ++
        (qs ++ s.rest.dropWhile (fun p => p.arrival ≤ s.time))
      rw [hsplit, hpend_eq, List.append_assoc]
      rfl
    · show (s.gantt ++ [(p₀.id, s.time, s.time + p₀.burst)]).map Prod.fst =
        (pre ++ [p₀]).map Process.id
      rw [List.map_append, List.map_append, hgid]
      rfl
    · intro p hp
      show p.arrival ≤ s.time + p₀.burst
      have hpq : p ∈ s.queue ++ s.rest.takeWhile (fun p => p.arrival ≤ s.time) := by
        rw [hqa]
        exact List.mem_cons_of_mem _ hp
      have : p.arrival ≤ s.time := by
        rcases List.mem_append.mp hpq with h | h
        · exact hS.queueArr p h
        · simpa using List.mem_takeWhile_imp h
      omega
    · intro p hp
      have hpne : p.id ≠ p₀.id :=
        fun he => hp₀tl (he ▸ List.mem_map_of_mem Process.id hp)
      rw [dlookup_dinsert_ne _ _ hpne]
      refine hS.remFull p ?_
      rw [hpend_eq]
      exact List.mem_cons_of_mem _ hp
    · intro e he
      have he' : e ∈ s.gantt ++ [(p₀.id, s.time, s.time + p₀.burst)] := he
      rcases List.mem_append.mp he' with h | h
      · have hid : e.1 ∈ pre.map Process.id := by
          rw [← hgid]
          exact List.mem_map_of_mem Prod.fst h
        have hene : e.1 ≠ p₀.id := by
          intro heq
          refine hdisj hid ?_
          rw [heq]
          exact List.mem_map_of_mem Process.id hp₀mem
        rw [dlookup_dinsert_ne _ _ hene]
        exact hS.ganttFin e h
      · rw [List.mem_singleton] at h
        subst h
        exact dlookup_dinsert_self _ _ _
    · refine ⟨dinsert p₀.id (s.time - p₀.arrival) w₀,
        dinsert p₀.id (s.time + p₀.burst - p₀.arrival) t₀, ?_⟩
      show fcfsGo (s.time + p₀.burst) (s.gantt ++ [(p₀.id, s.time, s.time + p₀.burst)])
        (dinsert p₀.id (s.time - p₀.arrival) w₀)
        (dinsert p₀.id (s.time + p₀.burst - p₀.arrival) t₀)
        (qs ++ s.rest.dropWhile (fun p => p.arrival ≤ s.time)) = fcfs ps
      have h0 := hfgo
      rw [hpend_eq] at h0
      have hstart : (if s.time < p₀.arrival then p₀.arrival else s.time) = s.time :=
        if_neg (not_lt.mpr harr)
      rw [show fcfsGo s.time s.gantt w₀ t₀
          (p₀ :: (qs ++ s.rest.dropWhile (fun p => p.arrival ≤ s.time))) =
        fcfsGo ((if s.time < p₀.arrival then p₀.arrival else s.time) + p₀.burst)
          (s.gantt ++ [(p₀.id, if s.time < p₀.arrival then p₀.arrival else s.time,
            (if s.time < p₀.arrival then p₀.arrival else s.time) + p₀.burst)])
          (dinsert p₀.id ((if s.time < p₀.arrival then p₀.arrival else s.time) -
            p₀.arrival) w₀)
          (dinsert p₀.id ((if s.time < p₀.arrival then p₀.arrival else s.time) +
            p₀.burst - p₀.arrival) t₀)
          (qs ++ s.rest.dropWhile (fun p => p.arrival ≤ s.time)) from rfl, hstart] at h0
      exact h0

/-! ### C10 -/

/-- C10: large-quantum degeneration — on a valid non-empty input, if the
quantum is at least every process's burst, `round_robin` returns exactly
the `fcfs` Schedule Result: every admitted process finishes within its
first slice, so the FIFO queue replays the arrival-sorted FCFS order, and
the final waiting/turnaround pass reproduces the FCFS dicts from the
recorded finish times. -/
theorem C10_large_quantum (ps : List Process) (q : Int) (hv : ValidInput ps)
    (hne : ps ≠ []) (hqb : ∀ p ∈ ps, p.burst ≤ q) :
    round_robin ps q = some (fcfs ps) := by
  have hq1 : 1 ≤ q := by
    obtain ⟨p, hp⟩ := List.exists_mem_of_ne_nil ps hne
    have h1 := hv.1 p hp
    have h2 := hqb p hp
    omega
  obtain ⟨s', hs', hI, hd⟩ := rr_run_total q hq1 ps hv
  have hsim : RRSim ps s' := (rrLoop_inv q (RRSim ps)
    (fun s hS hnd => rrSim_step q ps hv hqb s hS hnd) _ _ _ (rrSim_init ps hv) hs').1
  obtain ⟨w₀, t₀, hfgo⟩ := hsim.fgo
  rw [hd.2, hd.1] at hfgo
  have hres : (s'.gantt, w₀, t₀) = fcfs ps := hfgo
  have hg : s'.gantt = (fcfs ps).1 := congrArg Prod.fst hres
  have hw : w₀ = (fcfs ps).2.1 := congrArg (fun x => x.2.1) hres
  have ht : t₀ = (fcfs ps).2.2 := congrArg (fun x => x.2.2) hres
  have hfinm : finMatches s'.fin 0 (sortByArrival ps) := by
    refine finMatches_of_gantt _ 0 s'.fin ?_
    intro e he
    refine hsim.ganttFin e ?_
    rw [hg]
    exact he
  have hfin := rrFinGo_eq_fcfsGo (sortByArrival ps) 0 [] [] [] s'.fin hfinm
  show (match rrLoop q (loopFuel ps) (rrInit ps) with
    | none => none
    | some s =>
      (rrFinGo s.fin [] [] (sortByArrival ps)).map fun wt => (s.gantt, wt.1, wt.2)) =
    some (fcfs ps)
  rw [hs']
  show ((rrFinGo s'.fin [] [] (sortByArrival ps)).map
    fun wt => (s'.gantt, wt.1, wt.2)) = some (fcfs ps)
  rw [hfin]
  show some (s'.gantt, (fcfsGo 0 [] [] [] (sortByArrival ps)).2.1,
    (fcfsGo 0 [] [] [] (sortByArrival ps)).2.2) = some (fcfs ps)
  rw [hg]
  rfl

/-- C10 witness: the worked example with quantum 8 (at least every
burst). -/
theorem C10_large_quantum_witness : round_robin exampleProcs 8 = some (fcfs exampleProcs) :=
  C10_large_quantum exampleProcs 8 (by decide) (by decide) (by decide)

/-! ### C7: the SJF selection rule -/

/-- On an arrival-sorted list the admission `takeWhile` captures exactly
the processes with arrival ≤ the clock. -/
theorem takeWhile_arr_eq_filter (t : Int) (l : List Process)
    (hs : l.Pairwise (fun a b => a.arrival ≤ b.arrival)) :
    l.takeWhile (fun p => p.arrival ≤ t) = l.filter (fun p => p.arrival ≤ t) := by
  induction l with
  | nil => rfl
  | cons p l ih =>
    rw [List.pairwise_cons] at hs
    simp only [List.takeWhile_cons, List.filter_cons]
    by_cases hp : p.arrival ≤ t
    · rw [if_pos (decide_eq_true hp), if_pos (decide_eq_true hp), ih hs.2]
    · have hnp : ¬ (decide (p.arrival ≤ t) = true) := fun h => hp (of_decide_eq_true h)
      rw [if_neg hnp, if_neg hnp]
      symm
      rw [List.filter_eq_nil_iff]
      intro x hx hdec
      have h1 := hs.1 x hx
      have h2 := of_decide_eq_true hdec
      omega

/-- On an arrival-sorted list the admission `dropWhile` keeps exactly the
processes with arrival > the clock. -/
theorem dropWhile_arr_eq_filter (t : Int) (l : List Process)
    (hs : l.Pairwise (fun a b => a.arrival ≤ b.arrival)) :
    l.dropWhile (fun p => p.arrival ≤ t) = l.filter (fun p => ¬ p.arrival ≤ t) := by
  induction l with
  | nil => rfl
  | cons p l ih =>
    rw [List.pairwise_cons] at hs
    simp only [List.dropWhile_cons, List.filter_cons]
    by_cases hp : p.arrival ≤ t
    · have hnp : ¬ (decide (¬ p.arrival ≤ t) = true) := fun h => (of_decide_eq_true h) hp
      rw [if_pos (decide_eq_true hp), if_neg hnp, ih hs.2]
    · have hnp : ¬ (decide (p.arrival ≤ t) = true) := fun h => hp (of_decide_eq_true h)
      rw [if_neg hnp, if_pos (decide_eq_true hp), List.filter_eq_self.mpr]
      intro x hx
      have h1 := hs.1 x hx
      exact decide_eq_true (by omega)

/-- In a duplicate-free list, earlier elements have smaller `indexOf`. -/
theorem indexOf_pairwise_of_nodup (l : List String) (h : l.Nodup) :
    l.Pairwise (fun a b => l.indexOf a < l.indexOf b) := by
  induction l with
  | nil => exact List.Pairwise.nil
  | cons x l ih =>
    rw [List.nodup_cons] at h
    rw [List.pairwise_cons]
    constructor
    · intro b hb
      have hxb : x ≠ b := fun he => h.1 (he ▸ hb)
      rw [List.indexOf_cons_self, List.indexOf_cons_ne _ hxb]
      omega
    · refine List.Pairwise.imp_of_mem ?_ (ih h.2)
      intro a b ha hb hab
      have hxa : x ≠ a := fun he => h.1 (he ▸ ha)
      have hxb : x ≠ b := fun he => h.1 (he ▸ hb)
      rw [List.indexOf_cons_ne _ hxa, List.indexOf_cons_ne _ hxb]
      omega

/-- The input list is pairwise ordered by input position. -/
theorem input_pairwise_idx (ps : List Process) (hnodup : (ps.map Process.id).Nodup) :
    ps.Pairwise (fun a b =>
      (ps.map Process.id).indexOf a.id < (ps.map Process.id).indexOf b.id) := by
  have h := indexOf_pairwise_of_nodup (ps.map Process.id) hnodup
  rw [List.pairwise_map] at h
  exact h

/-- Stability of `orderedInsert`: a pairwise relation that holds
automatically across strictly unequal keys survives one insertion. -/
theorem orderedInsert_pairwise_stable (r : Process → Process → Prop) [DecidableRel r]
    (P : Process → Process → Prop) (hcomp : ∀ a b, ¬ r a b → P b a)
    (a : Process) (l : List Process) (h : (a :: l).Pairwise P) :
    (l.orderedInsert r a).Pairwise P := by
  induction l with
  | nil => simpa using h
  | cons b l ih =>
    rw [List.orderedInsert]
    by_cases hr : r a b
    · rw [if_pos hr]; exact h
    · rw [if_neg hr]
      rw [List.pairwise_cons] at h
      obtain ⟨hah, htl⟩ := h
      rw [List.pairwise_cons] at htl
      obtain ⟨hbl, hl⟩ := htl
      rw [List.pairwise_cons]
      constructor
      · intro x hx
        rcases (List.mem_orderedInsert r).mp hx with he | hm
        · rw [he]; exact hcomp a b hr
        · exact hbl x hm
      · apply ih
        rw [List.pairwise_cons]
        exact ⟨fun x hx => hah x (List.mem_cons_of_mem b hx), hl⟩

/-- Stability of `insertionSort`: a pairwise relation that holds
automatically across strictly unequal keys is preserved by the sort. -/
theorem insertionSort_pairwise_stable (r : Process → Process → Prop) [DecidableRel r]
    (P : Process → Process → Prop) (hcomp : ∀ a b, ¬ r a b → P b a)
    (l : List Process) (h : l.Pairwise P) :
    (l.insertionSort r).Pairwise P := by
  induction l with
  | nil => exact List.Pairwise.nil
  | cons a l ih =>
    rw [List.insertionSort]
    rw [List.pairwise_cons] at h
    apply orderedInsert_pairwise_stable r P hcomp
    rw [List.pairwise_cons]
    refine ⟨?_, ih h.2⟩
    intro x hx
    exact h.1 x ((List.perm_insertionSort r l).mem_iff.mp hx)

theorem sortByBurst_sorted (ps : List Process) :
    (sortByBurst ps).Pairwise (fun a b => a.burst ≤ b.burst) := by
  haveI : IsTotal Process (fun a b => a.burst ≤ b.burst) := ⟨fun a b => le_total _ _⟩
  haveI : IsTrans Process (fun a b => a.burst ≤ b.burst) :=
    ⟨fun _ _ _ h1 h2 => le_trans h1 h2⟩
  exact List.sorted_insertionSort _ ps

/-- The arrival-sorted input is strictly ordered by the tie-break order
(arrival, then input position): the stable sort characterisation. -/
theorem sortByArrival_lex (ps : List Process) (hnodup : (ps.map Process.id).Nodup) :
    (sortByArrival ps).Pairwise (lexBefore ps) := by
  have h1 : (sortByArrival ps).Pairwise (fun a b => a.arrival = b.arrival →
      (ps.map Process.id).indexOf a.id < (ps.map Process.id).indexOf b.id) := by
    show (ps.insertionSort (fun a b => a.arrival ≤ b.arrival)).Pairwise _
    apply insertionSort_pairwise_stable
    · intro a b hr he
      exact absurd (le_of_eq he.symm) hr
    · refine List.Pairwise.imp ?_ (input_pairwise_idx ps hnodup)
      intro a b h _
      exact h
  have h3 := (sortByArrival_sorted ps).and h1
  refine h3.imp ?_
  intro a b hab
  rcases lt_or_eq_of_le hab.1 with hlt | heq
  · exact Or.inl hlt
  · exact Or.inr ⟨heq, hab.2 heq⟩

theorem sjfTie_init (ps : List Process) : SjfTie ps (npInit ps) :=
  ⟨List.Pairwise.nil, fun a ha => absurd ha (List.not_mem_nil a), ⟨[], rfl⟩⟩

/-- The candidate ready list at a decision point (old ready members plus
the processes admitted there) is pairwise in tie-break order on equal
bursts. -/
theorem sjf_ready_pairwise (ps : List Process) (hv : ValidInput ps) (s : NPState)
    (hI : NPInv ps s) (hT : SjfTie ps s) :
    (s.ready ++ s.rest.takeWhile (fun p => p.arrival ≤ s.time)).Pairwise
      (fun a b => a.burst = b.burst → lexBefore ps a b) := by
  obtain ⟨u, hu⟩ := hT.restSuf
  have hlexS := sortByArrival_lex ps hv.2.2
  rw [← hu] at hlexS
  have hrest : s.rest.Pairwise (lexBefore ps) := (List.pairwise_append.mp hlexS).2.1
  have hA : (s.rest.takeWhile (fun p => p.arrival ≤ s.time)).Pairwise (lexBefore ps) :=
    hrest.sublist (List.takeWhile_sublist _)
  rw [List.pairwise_append]
  refine ⟨hT.readyTies, List.Pairwise.imp ?_ hA, ?_⟩
  · intro a b h _
    exact h
  intro a ha b hb _
  have hbr : b ∈ s.rest := (List.takeWhile_sublist _).subset hb
  exact Or.inl (hT.crossArr a ha b hbr)

/-- The burst-sorted candidate ready list stays pairwise in tie-break
order on equal bursts (stability of the sort). -/
theorem sjf_sorted_pairwise (ps : List Process) (hv : ValidInput ps) (s : NPState)
    (hI : NPInv ps s) (hT : SjfTie ps s) :
    (sortByBurst (s.ready ++ s.rest.takeWhile (fun p => p.arrival ≤ s.time))).Pairwise
      (fun a b => a.burst = b.burst → lexBefore ps a b) := by
  show ((s.ready ++ s.rest.takeWhile (fun p => p.arrival ≤ s.time)).insertionSort
      (fun a b => a.burst ≤ b.burst)).Pairwise _
  apply insertionSort_pairwise_stable
  · intro a b hr he
    exact absurd (le_of_eq he.symm) hr
  · exact sjf_ready_pairwise ps hv s hI hT

/-- One `sjf` loop step preserves the tie-break bookkeeping. -/
theorem sjfTie_step (ps : List Process) (hv : ValidInput ps) (s : NPState)
    (hI : NPInv ps s) (hT : SjfTie ps s) :
    SjfTie ps (npStep sortByBurst s) := by
  obtain ⟨u, hu⟩ := hT.restSuf
  have htad := List.takeWhile_append_dropWhile
    (fun p => decide (p.arrival ≤ s.time)) s.rest
  have hsuf : ∃ v, v ++ s.rest.dropWhile (fun p => p.arrival ≤ s.time) =
      sortByArrival ps :=
    ⟨u ++ s.rest.takeWhile (fun p => p.arrival ≤ s.time), by
      rw [List.append_assoc, htad, hu]⟩
  have hdw := dropWhile_arr_eq_filter s.time s.rest hI.restSorted
  have hrestlate : ∀ b ∈ s.rest.dropWhile (fun p => p.arrival ≤ s.time),
      ¬ b.arrival ≤ s.time := by
    intro b hb
    rw [hdw] at hb
    have h2 := (List.mem_filter.mp hb).2
    exact of_decide_eq_true h2
  have hreadyarr : ∀ a ∈ s.ready ++ s.rest.takeWhile (fun p => p.arrival ≤ s.time),
      a.arrival ≤ s.time := by
    intro a ha
    rcases List.mem_append.mp ha with h1 | h2
    · exact hI.readyArr a h1
    · have h3 := List.mem_takeWhile_imp h2
      exact of_decide_eq_true h3
  rw [npStep_eq]
  by_cases hready : s.ready ++ s.rest.takeWhile (fun p => p.arrival ≤ s.time) = []
  · rw [if_pos hready]
    refine ⟨?_, ?_, hsuf⟩
    · show (s.ready ++ s.rest.takeWhile (fun p => p.arrival ≤ s.time)).Pairwise _
      rw [hready]
      exact List.Pairwise.nil
    · intro a ha
      have ha' : a ∈ s.ready ++ s.rest.takeWhile (fun p => p.arrival ≤ s.time) := ha
      rw [hready] at ha'
      exact absurd ha' (List.not_mem_nil a)
  · rw [if_neg hready]
    cases hsrt : sortByBurst (s.ready ++ s.rest.takeWhile (fun p => p.arrival ≤ s.time)) with
    | nil =>
      exfalso
      have h := sortByBurst_perm (s.ready ++ s.rest.takeWhile (fun p => p.arrival ≤ s.time))
      rw [hsrt] at h
      exact hready h.symm.eq_nil
    | cons p₀ qs =>
      have hperm := sortByBurst_perm
        (s.ready ++ s.rest.takeWhile (fun p => p.arrival ≤ s.time))
      rw [hsrt] at hperm
      have hPs := sjf_sorted_pairwise ps hv s hI hT
      rw [hsrt] at hPs
      refine ⟨hPs.of_cons, ?_, hsuf⟩
      intro a ha b hb
      have ha' : a ∈ qs := ha
      have hb' : b ∈ s.rest.dropWhile (fun p => p.arrival ≤ s.time) := hb
      have h1 := hreadyarr a (hperm.subset (List.mem_cons_of_mem p₀ ha'))
      have h2 := hrestlate b hb'
      omega

/-- Every reachable `sjf` loop state satisfies both the master invariant
and the tie-break bookkeeping. -/
theorem sjfReach_inv (ps : List Process) (hv : ValidInput ps) (s : NPState)
    (h : SjfReach ps s) : NPInv ps s ∧ SjfTie ps s := by
  induction h with
  | init => exact ⟨npInv_init ps hv, sjfTie_init ps⟩
  | step s' h' hnd ih =>
    exact ⟨(npInv_step sortByBurst sortByBurst_perm ps hv s' ih.1 hnd).1,
      sjfTie_step ps hv s' ih.1 ih.2⟩

/-- C7: SJF selection rule — at every state the `sjf` loop reaches on a
valid input, the admission step moves into the ready set exactly the
unadmitted processes with arrival ≤ the clock (and leaves exactly those
with arrival > the clock), and when the resulting ready set is non-empty
the loop runs to completion its first burst-sorted member, which has the
smallest burst among ready members and beats every other equal-burst
ready member in the tie-break order (earliest arrival, then input
order): one interval of the full burst is emitted, the clock advances by
the full burst, and the process leaves the ready set. -/
theorem C7_sjf_selection (ps : List Process) (hv : ValidInput ps)
    (s : NPState) (hreach : SjfReach ps s) :
    s.rest.takeWhile (fun p => p.arrival ≤ s.time) =
      s.rest.filter (fun p => p.arrival ≤ s.time) ∧
    s.rest.dropWhile (fun p => p.arrival ≤ s.time) =
      s.rest.filter (fun p => ¬ p.arrival ≤ s.time) ∧
    ∀ p₀ qs,
      sortByBurst (s.ready ++ s.rest.takeWhile (fun p => p.arrival ≤ s.time)) =
        p₀ :: qs →
      p₀ ∈ s.ready ++ s.rest.takeWhile (fun p => p.arrival ≤ s.time) ∧
      (∀ x ∈ s.ready ++ s.rest.takeWhile (fun p => p.arrival ≤ s.time),
        p₀.burst ≤ x.burst) ∧
      (∀ x ∈ s.ready ++ s.rest.takeWhile (fun p => p.arrival ≤ s.time),
        x.burst = p₀.burst → x ≠ p₀ → lexBefore ps p₀ x) ∧
      npStep sortByBurst s =
        { rest := s.rest.dropWhile (fun p => p.arrival ≤ s.time), ready := qs,
          time := s.time + p₀.burst,
          gantt := s.gantt ++ [(p₀.id, s.time, s.time + p₀.burst)],
          w := dinsert p₀.id (s.time - p₀.arrival) s.w,
          t := dinsert p₀.id (s.time + p₀.burst - p₀.arrival) s.t } := by
  obtain ⟨hI, hT⟩ := sjfReach_inv ps hv s hreach
  refine ⟨takeWhile_arr_eq_filter s.time s.rest hI.restSorted,
    dropWhile_arr_eq_filter s.time s.rest hI.restSorted, ?_⟩
  intro p₀ qs hsrt
  have hperm := sortByBurst_perm
    (s.ready ++ s.rest.takeWhile (fun p => p.arrival ≤ s.time))
  rw [hsrt] at hperm
  have hsorted := sortByBurst_sorted
    (s.ready ++ s.rest.takeWhile (fun p => p.arrival ≤ s.time))
  rw [hsrt] at hsorted
  have hPs := sjf_sorted_pairwise ps hv s hI hT
  rw [hsrt] at hPs
  have hne' : s.ready ++ s.rest.takeWhile (fun p => p.arrival ≤ s.time) ≠ [] := by
    intro h0
    rw [h0] at hsrt
    have h1 : ([] : List Process) = p₀ :: qs := hsrt
    cases h1
  refine ⟨hperm.subset (List.mem_cons_self p₀ qs), ?_, ?_, ?_⟩
  · intro x hx
    rcases List.mem_cons.mp (hperm.symm.subset hx) with he | hm
    · rw [he]
    · exact List.rel_of_pairwise_cons hsorted hm
  · intro x hx hb hne
    rcases List.mem_cons.mp (hperm.symm.subset hx) with he | hm
    · exact absurd he hne
    · exact List.rel_of_pairwise_cons hPs hm hb.symm
  · rw [npStep_eq, if_neg hne', hsrt]

/-- C7 witness: the rule instantiated at the initial `sjf` state of the
worked example. -/
theorem C7_sjf_selection_witness :
    (npInit exampleProcs).rest.takeWhile
        (fun p => p.arrival ≤ (npInit exampleProcs).time) =
      (npInit exampleProcs).rest.filter
        (fun p => p.arrival ≤ (npInit exampleProcs).time) ∧
    (npInit exampleProcs).rest.dropWhile
        (fun p => p.arrival ≤ (npInit exampleProcs).time) =
      (npInit exampleProcs).rest.filter
        (fun p => ¬ p.arrival ≤ (npInit exampleProcs).time) ∧
    ∀ p₀ qs,
      sortByBurst ((npInit exampleProcs).ready ++
          (npInit exampleProcs).rest.takeWhile
            (fun p => p.arrival ≤ (npInit exampleProcs).time)) = p₀ :: qs →
      p₀ ∈ (npInit exampleProcs).ready ++
          (npInit exampleProcs).rest.takeWhile
            (fun p => p.arrival ≤ (npInit exampleProcs).time) ∧
      (∀ x ∈ (npInit exampleProcs).ready ++
          (npInit exampleProcs).rest.takeWhile
            (fun p => p.arrival ≤ (npInit exampleProcs).time),
        p₀.burst ≤ x.burst) ∧
      (∀ x ∈ (npInit exampleProcs).ready ++
          (npInit exampleProcs).rest.takeWhile
            (fun p => p.arrival ≤ (npInit exampleProcs).time),
        x.burst = p₀.burst → x ≠ p₀ → lexBefore exampleProcs p₀ x) ∧
      npStep sortByBurst (npInit exampleProcs) =
        { rest := (npInit exampleProcs).rest.dropWhile
            (fun p => p.arrival ≤ (npInit exampleProcs).time),
          ready := qs,
          time := (npInit exampleProcs).time + p₀.burst,
          gantt := (npInit exampleProcs).gantt ++
            [(p₀.id, (npInit exampleProcs).time,
              (npInit exampleProcs).time + p₀.burst)],
          w := dinsert p₀.id
            ((npInit exampleProcs).time - p₀.arrival) (npInit exampleProcs).w,
          t := dinsert p₀.id
            ((npInit exampleProcs).time + p₀.burst - p₀.arrival)
            (npInit exampleProcs).t } :=
  C7_sjf_selection exampleProcs (by decide) (npInit exampleProcs) SjfReach.init
